import Mathlib

/-
Verification of the PIE record-consolidation engine
(`pie_clean/utils.py` and the merge path of `pie_clean/biospecimen_loader.py`)
against its natural-language specification.

Modelling conventions (shallow embedding of the pandas code):

* A cell value is a `Scalar`: `missing` models NaN/None, `int n` models a
  Python integer held in a cell, `str s` models a Python string.  The pandas
  dtype distinctions that are observable through values (e.g. an integer 47
  versus the string "47") are captured by the constructors; pure dtype
  metadata that leaves every value unchanged (such as `astype(object)` on a
  column of ints) is value-invisible and therefore not carried separately.
  Float-valued cells are representable through their string renderings
  (e.g. `str "1.0"`), which is how every claim here exercises them.
* `Scalar.render` models Python `str(v)`; note `str(nan) = "nan"` which is
  what `astype(str)` produces for missing values.
* `parseFloat?` models Python `float(v)` on sign/digits/decimal-point
  literals (the fragment exercised by the code and the claims); exotic float
  spellings (exponents, inf, nan, underscores) are treated as unparseable.
  A parsed number is represented exactly as a pair `(n, e)` denoting the
  rational n / 10^e, so that the tolerance test below is exact arithmetic.
* `isclose` is `np.isclose` with its default tolerances rtol = 1e-5,
  atol = 1e-8; the inequality |a - b| <= atol + rtol * |b| is stated with
  denominators cleared, over ℤ, so it is kernel-computable.
-/

inductive Scalar where
  | missing : Scalar
  | int : ℤ → Scalar
  | str : String → Scalar
deriving DecidableEq, Repr, Inhabited

namespace Scalar

/-- Python `str(v)` as used by `astype(str)` and f-strings: NaN renders as
"nan", integers via decimal notation, strings as themselves. -/
def render : Scalar → String
  | .missing => "nan"
  | .int n => toString n
  | .str s => s

/-- Value-based missingness test, `pd.isna(v)`. -/
def isNA : Scalar → Bool
  | .missing => true
  | _ => false

end Scalar

/-- Python `s.strip()` on whitespace, implemented structurally over the
character list (the built-in `String.trim` is byte-position based and does
not reduce in the kernel). -/
def pyStrip (s : String) : String :=
  String.mk (((s.data.dropWhile Char.isWhitespace).reverse.dropWhile
    Char.isWhitespace).reverse)

/-- Digits of a character list interpreted as a natural number, folding
left with accumulator. -/
def natOfDigits : ℕ → List Char → ℕ
  | acc, [] => acc
  | acc, c :: cs => natOfDigits (acc * 10 + (c.toNat - '0'.toNat)) cs

/-- Python `float(s)` on the literal fragment sign? (digits [. digits?] | . digits):
whitespace is stripped, a leading sign is allowed, and at least one digit must
appear.  The result `(n, e)` denotes the exact rational n / 10^e.  Exponent
forms, inf/nan spellings and underscores are outside the modelled fragment
and map to `none`. -/
def parseDecimal? (s : String) : Option (ℤ × ℕ) :=
  let cs := (pyStrip s).data
  let signed : ℤ × List Char :=
    match cs with
    | '+' :: t => (1, t)
    | '-' :: t => (-1, t)
    | _ => (1, cs)
  let sign := signed.1
  let body := signed.2
  let intPart := body.takeWhile Char.isDigit
  let rest := body.dropWhile Char.isDigit
  match rest with
  | [] =>
    if intPart.isEmpty then none
    else some (sign * (natOfDigits 0 intPart : ℤ), 0)
  | '.' :: frac =>
    if frac.all Char.isDigit ∧ ¬ (intPart.isEmpty ∧ frac.isEmpty) then
      some (sign * ((natOfDigits 0 intPart : ℤ) * (10 : ℤ) ^ frac.length +
        (natOfDigits 0 frac : ℤ)), frac.length)
    else none
  | _ => none

/-- Python `float(v)` applied to a cell value: floats of ints succeed, strings
go through the decimal parser, NaN is treated as numerically unusable (in the
source `float(nan)` yields NaN, for which `np.isclose` is `False`, so the
outcome is identical to parse failure everywhere this is consulted). -/
def parseFloat? : Scalar → Option (ℤ × ℕ)
  | .missing => none
  | .int n => some (n, 0)
  | .str s => parseDecimal? s

/-- `np.isclose` with its default tolerances on the exact rationals
a = n1 / 10^e1 and b = n2 / 10^e2:
|a - b| ≤ 10⁻⁸ + 10⁻⁵ * |b|, with denominators cleared by multiplying
through by 10^(e1 + e2 + 8). -/
def isclose (a b : ℤ × ℕ) : Bool :=
  |a.1 * (10 : ℤ) ^ b.2 - b.1 * (10 : ℤ) ^ a.2| * 10 ^ 8 ≤
    (10 : ℤ) ^ (a.2 + b.2) + |b.1| * (10 : ℤ) ^ (a.2 + 3)

/-- Emptiness test used by `combine_values` in
`general_deduplicate_suffixed_columns`: `pd.isna(v) or str(v).strip() == ""`. -/
def isEmptyVal (v : Scalar) : Bool :=
  v.isNA || pyStrip v.render == ""

/-- The row-wise combiner of `general_deduplicate_suffixed_columns`
(`utils.py` lines 132-154): `v1` is the `_x` cell and `v2` the `_y` cell. -/
def combine_values (v1 v2 : Scalar) : Scalar :=
  if isEmptyVal v1 && isEmptyVal v2 then .missing
  else if isEmptyVal v1 then v2
  else if isEmptyVal v2 then v1
  else if v1.render == v2.render then v1
  else
    match parseFloat? v1, parseFloat? v2 with
    | some a, some b =>
      if isclose a b then v1 else .str (v1.render ++ "|" ++ v2.render)
    | _, _ => .str (v1.render ++ "|" ++ v2.render)

example : combine_values (.int 1) (.str "1") = .int 1 := by decide
example : combine_values (.str "1.0") (.str "1.00") = .str "1.0" := by decide
example : combine_values (.str "a") (.str "b") = .str "a|b" := by decide
example : combine_values .missing (.str "b") = .str "b" := by decide
example : combine_values (.str " ") (.str "b") = .str "b" := by decide
example : combine_values (.int 3) (.str "3.1") = .str "3|3.1" := by decide

/- List utilities used by the embedding.  `firstDedup` removes duplicates
keeping the first occurrence of each element, matching the semantics of
pandas `Series.unique` / `DataFrame.drop_duplicates` and of inserting into a
Python `set` as far as membership is concerned. -/

def firstDedupAux {α : Type} [DecidableEq α] (seen : List α) : List α → List α
  | [] => []
  | a :: l =>
    if a ∈ seen then firstDedupAux seen l else a :: firstDedupAux (a :: seen) l

def firstDedup {α : Type} [DecidableEq α] (l : List α) : List α :=
  firstDedupAux [] l

/-- Python string comparison: lexicographic by code point, a strict prefix
being smaller.  Implemented structurally so it computes in the kernel. -/
def charListLt : List Char → List Char → Bool
  | [], [] => false
  | [], _ :: _ => true
  | _ :: _, [] => false
  | a :: as, b :: bs =>
    if a.toNat < b.toNat then true
    else if b.toNat < a.toNat then false
    else charListLt as bs

def pyStrLt (a b : String) : Bool :=
  charListLt a.data b.data

/-- Stable insertion of a string into an ascending list. -/
def insertAsc (a : String) : List String → List String
  | [] => [a]
  | b :: l => if pyStrLt a b then a :: b :: l else b :: insertAsc a l

/-- Ascending sort matching Python `sorted` on strings. -/
def sortAsc (l : List String) : List String :=
  l.foldr insertAsc []

example : sortAsc ["b", "a", "10", "2"] = ["10", "2", "a", "b"] := by decide
example : firstDedup [3, 1, 3, 2, 1] = [3, 1, 2] := by decide

/- The table model.  A `Row` is an association list from column name to
cell value, and a `Table` carries the column order plus the rows.  The
well-formedness predicate `Table.WF` states that each row's names are
exactly the column list (in order), which is automatic for a pandas
DataFrame. -/

abbrev Row := List (String × Scalar)

structure Table where
  cols : List String
  rows : List Row
deriving DecidableEq, Repr, Inhabited

namespace Table

/-- Every row carries exactly the table's columns, in order. -/
def WF (t : Table) : Prop :=
  ∀ r ∈ t.rows, r.map Prod.fst = t.cols

instance : DecidablePred WF := fun t =>
  inferInstanceAs (Decidable (∀ r ∈ t.rows, r.map Prod.fst = t.cols))

/-- `df.empty`: true when either axis has length zero. -/
def isEmptyT (t : Table) : Bool :=
  t.rows.isEmpty || t.cols.isEmpty

end Table

/-- Cell access by column name; first matching entry, `missing` when the
row carries no such column. -/
def getCell (r : Row) (c : String) : Scalar :=
  (r.lookup c).getD .missing

/-- The (PATNO, EVENT_ID) key of a row. -/
def keyOf (r : Row) : Scalar × Scalar :=
  (getCell r "PATNO", getCell r "EVENT_ID")

/-- Row-wise effect of `astype(str)` on column `c`: the entries named `c`
are replaced by their string renderings, all other entries are untouched. -/
def stringifyRow (c : String) (r : Row) : Row :=
  r.map (fun p => if p.1 = c then (p.1, .str p.2.render) else p)

/-- Column-wise `astype(str)`: every cell of column `c` is replaced by its
string rendering (`df[c] = df[c].astype(str)`). -/
def stringifyCol (c : String) (t : Table) : Table :=
  { cols := t.cols, rows := t.rows.map (stringifyRow c) }

/-- Keys of all rows of a table, in row order. -/
def keysOf (t : Table) : List (Scalar × Scalar) :=
  t.rows.map keyOf

/-- `df.drop_duplicates(subset=["PATNO","EVENT_ID"], keep="first")`: keep the
first row of each key, preserving row order (NaN keys are kept and compare
equal to each other, as in pandas). -/
def keepFirstByKeyAux (seen : List (Scalar × Scalar)) : List Row → List Row
  | [] => []
  | r :: rs =>
    if keyOf r ∈ seen then keepFirstByKeyAux seen rs
    else r :: keepFirstByKeyAux (keyOf r :: seen) rs

def keepFirstByKey (rs : List Row) : List Row :=
  keepFirstByKeyAux [] rs

/-- Values of column `c` over the rows of `t` whose key is `k`, in row
order (the series `df_indexed.loc[group, col]`). -/
def groupVals (t : Table) (k : Scalar × Scalar) (c : String) : List Scalar :=
  (t.rows.filter (fun r => keyOf r = k)).map (fun r => getCell r c)

/-- Non-null entries of a cell list (`series.dropna()`). -/
def nonMissing (vs : List Scalar) : List Scalar :=
  vs.filter (fun v => v ≠ .missing)

/-- `series.nunique()`: number of distinct non-null values. -/
def nuniqueVals (vs : List Scalar) : ℕ :=
  (firstDedup (nonMissing vs)).length

/-- The inner aggregator of `aggregate_by_patno_eventid` (`utils.py` lines
62-64): drop nulls, render to strings, take distinct renderings, sort them
lexicographically and join with a pipe. -/
def string_agg_slow (vs : List Scalar) : String :=
  String.intercalate "|" (sortAsc (firstDedup ((nonMissing vs).map Scalar.render)))

/-- `groupby(...).first()`: first non-null value of the group, NaN when all
entries are null. -/
def firstNonMissing (vs : List Scalar) : Scalar :=
  ((nonMissing vs).head?).getD .missing

/-- Aggregated cell for key `k` and column `c` of the indexed table `t1`.
The source first fills `result_df` with `grouped.first()` and then, for the
groups of each column having `nunique > 1`, overwrites the cell with
`string_agg_slow`; per cell that collapses to this conditional. -/
def aggCell (t1 : Table) (k : Scalar × Scalar) (c : String) : Scalar :=
  let vs := groupVals t1 k c
  if 1 < nuniqueVals vs then .str (string_agg_slow vs) else firstNonMissing vs

/-- Group keys of `df_indexed.groupby(level=["PATNO","EVENT_ID"])`: the
distinct keys whose components are all non-null — pandas `groupby` drops any
group whose key contains NaN (default `dropna=True`).  The source relies on
the default sorted group order; no claim here observes the row order of the
aggregated output, and we keep first-occurrence order of the keys. -/
def groupKeys (t1 : Table) : List (Scalar × Scalar) :=
  (firstDedup (keysOf t1)).filter
    (fun k => k.1 ≠ Scalar.missing ∧ k.2 ≠ Scalar.missing)

/-- Slow path of `aggregate_by_patno_eventid` (`utils.py` lines 33-91),
applied to the original column list and the PATNO-stringified copy `t1`.
With no non-key columns it is `drop_duplicates(subset=group_cols)`;
otherwise one output row per group key, key columns first followed by the
non-key columns in their original order (lines 88-91). -/
def slowAgg (origCols : List String) (t1 : Table) : Table :=
  let aggCols := origCols.filter (fun c => c ≠ "PATNO" ∧ c ≠ "EVENT_ID")
  if aggCols.isEmpty then
    { cols := t1.cols, rows := keepFirstByKey t1.rows }
  else
    { cols := "PATNO" :: "EVENT_ID" :: aggCols,
      rows := (groupKeys t1).map (fun k =>
        ("PATNO", k.1) :: ("EVENT_ID", k.2) ::
          aggCols.map (fun c => (c, aggCell t1 k c))) }

/-- `aggregate_by_patno_eventid(df, modality)` from `utils.py` (the helper
`_aggregate_by_patno_eventid` in `biospecimen_loader.py` is line-identical on
tables that reach the copy, which is the only way it is called here).  The
`modality` argument only feeds log messages and is omitted.  Returns the
input unchanged when empty or when a key column is missing; otherwise works
on a copy with PATNO stringified, short-circuiting when that copy has no
duplicate keys. -/
def aggregate_by_patno_eventid (t : Table) : Table :=
  if t.isEmptyT then t
  else if ¬ ("PATNO" ∈ t.cols ∧ "EVENT_ID" ∈ t.cols) then t
  else
    let t1 := stringifyCol "PATNO" t
    if (keysOf t1).Nodup then t1
    else slowAgg t.cols t1

/-- True when the call to `aggregate_by_patno_eventid` emits the
missing-key-columns warning (`utils.py` line 18): the empty-table early
return precedes the key-column check, so an empty table never warns. -/
def aggregate_warns (t : Table) : Bool :=
  !t.isEmptyT && !("PATNO" ∈ t.cols ∧ "EVENT_ID" ∈ t.cols : Bool)

/-- True when the call reaches the groupby machinery (`utils.py` line 39):
non-empty, both key columns present, and the stringified copy has duplicate
keys. -/
def usedGroupbyMachinery (t : Table) : Bool :=
  !t.isEmptyT && (("PATNO" ∈ t.cols ∧ "EVENT_ID" ∈ t.cols : Bool)
    && !((keysOf (stringifyCol "PATNO" t)).Nodup : Bool))

example :
    aggregate_by_patno_eventid
      { cols := ["PATNO", "EVENT_ID", "NUPSOURC"],
        rows := [[("PATNO", .str "9999"), ("EVENT_ID", .str "V04"), ("NUPSOURC", .int 1)],
                 [("PATNO", .str "9999"), ("EVENT_ID", .str "V04"), ("NUPSOURC", .int 2)]] } =
      { cols := ["PATNO", "EVENT_ID", "NUPSOURC"],
        rows := [[("PATNO", .str "9999"), ("EVENT_ID", .str "V04"),
                  ("NUPSOURC", .str "1|2")]] } := by decide

/- Embedding of `general_deduplicate_suffixed_columns` (`utils.py` lines
93-164).  The source mutates its argument `df` in place (column assignment,
`drop(..., inplace=True)`, `rename(..., inplace=True)`) and then returns it;
the function below computes the resulting table, which is therefore both the
return value and the post-call state of the caller's DataFrame (made precise
by the reference-level program `general_deduplicate_prog` further down). -/

namespace Table

/-- Column assignment `df[c] = vals`: when `c` exists every entry named `c`
is replaced in position, otherwise the column is appended at the end. -/
def setCol (t : Table) (c : String) (vals : List Scalar) : Table :=
  if c ∈ t.cols then
    { cols := t.cols,
      rows := t.rows.zipWith (fun r v =>
        r.map (fun p => if p.1 = c then (p.1, v) else p)) vals }
  else
    { cols := t.cols ++ [c],
      rows := t.rows.zipWith (fun r v => r ++ [(c, v)]) vals }

/-- `df.drop(columns=cs)`: every column whose name is in `cs` is removed. -/
def dropCols (t : Table) (cs : List String) : Table :=
  { cols := t.cols.filter (fun c => c ∉ cs),
    rows := t.rows.map (fun r => r.filter (fun p => p.1 ∉ cs)) }

/-- `df.rename(columns={a: b})`: occurrences of name `a` become `b`,
positions unchanged. -/
def renameCol (t : Table) (a b : String) : Table :=
  { cols := t.cols.map (fun c => if c = a then b else c),
    rows := t.rows.map (fun r =>
      r.map (fun p => if p.1 = a then (b, p.2) else p)) }

end Table

/-- Last two characters of a string (empty-padded), computed structurally. -/
def lastTwo (c : String) : List Char :=
  (c.data.reverse.take 2).reverse

/-- First part of `col_name[:-2]`, computed structurally. -/
def dropLast2 (c : String) : String :=
  String.mk c.data.dropLast.dropLast

/-- Base name extraction: a column ending in `_x` or `_y` contributes the
name with the last two characters dropped (`col_name[:-2]`). -/
def baseOf (c : String) : Option String :=
  if lastTwo c = ['_', 'x'] then some (dropLast2 c)
  else if lastTwo c = ['_', 'y'] then some (dropLast2 c)
  else none

/-- Loop body for one base name (`utils.py` lines 118-163). -/
def dedupStep (t : Table) (base : String) : Table :=
  let cx := base ++ "_x"
  let cy := base ++ "_y"
  if cx ∈ t.cols ∧ cy ∈ t.cols then
    (t.setCol base (t.rows.map (fun r =>
      combine_values (getCell r cx) (getCell r cy)))).dropCols [cx, cy]
  else if cx ∈ t.cols then t.renameCol cx base
  else if cy ∈ t.cols then t.renameCol cy base
  else t

/-- `general_deduplicate_suffixed_columns(df)`.  The source iterates over a
Python `set` of base names whose order is unspecified; we iterate in first
occurrence order of the suffixed columns.  For tables without doubly
suffixed names the steps touch disjoint columns, so the order is not
observable; the claims below are settled within that fragment, and the
counterexamples involve a single base only. -/
def general_deduplicate_suffixed_columns (t : Table) : Table :=
  if t.isEmptyT then t
  else
    let bases := firstDedup (t.cols.filterMap baseOf)
    bases.foldl dedupStep t

example :
    general_deduplicate_suffixed_columns
      { cols := ["PATNO", "INFODT_x", "INFODT_y"],
        rows := [[("PATNO", .str "1"), ("INFODT_x", .str "01/2015"),
                  ("INFODT_y", .str "01/2025")]] } =
      { cols := ["PATNO", "INFODT"],
        rows := [[("PATNO", .str "1"), ("INFODT", .str "01/2015|01/2025")]] } := by
  decide

/- Reference-level view of the two transforms, for the frame-effect claims.
A memory is a list of tables and a reference an index into it; a program
maps (memory, argument reference) to (result reference, memory).  Each
program mirrors which object of the source every write targets. -/

abbrev Mem := List Table

/-- `aggregate_by_patno_eventid` at the reference level.  The early returns
(`utils.py` lines 13-14 and 17-19) hand back the caller's own reference with
no write.  Otherwise line 21 allocates `df_copy = df.copy()`, and every
subsequent write (line 23 column assignment, and on the slow path the
frames produced by `set_index` / `groupby` / `reset_index`, all fresh)
targets that copy or objects derived from it, never the argument. -/
def aggregate_prog (m : Mem) (r : ℕ) : ℕ × Mem :=
  let df := m.getD r default
  if df.isEmptyT then (r, m)
  else if ¬ ("PATNO" ∈ df.cols ∧ "EVENT_ID" ∈ df.cols) then (r, m)
  else
    let t1 := stringifyCol "PATNO" df
    if (keysOf t1).Nodup then (m.length, m ++ [t1])
    else (m.length, m ++ [slowAgg df.cols t1])

/-- `general_deduplicate_suffixed_columns` at the reference level.  The
early returns (lines 103-104 and 113-114) are writeless; otherwise the
per-base loop performs all of its column assignment, drop and rename
operations in place on the argument object itself (lines 156-163), and line
164 returns that same object. -/
def general_deduplicate_prog (m : Mem) (r : ℕ) : ℕ × Mem :=
  let df := m.getD r default
  if df.isEmptyT then (r, m)
  else if (df.cols.filterMap baseOf).isEmpty then (r, m)
  else (r, m.set r (general_deduplicate_suffixed_columns df))

/- Embedding of the `merge_all=True` path of `merge_biospecimen_data`
(`biospecimen_loader.py` lines 1969-2056).  The include/exclude filtering
that precedes it (lines 1926-1949) only selects which entries of the
mapping participate; the embedding takes the participating mapping, in
insertion order. -/

/-- Column prefixing of one prepared source (lines 1995-1999): every column
other than the two key columns is renamed to `{source}_{col}`. -/
def prefixName (src c : String) : String :=
  if c = "PATNO" ∨ c = "EVENT_ID" then c else src ++ "_" ++ c

def prefixCols (src : String) (d : Table) : Table :=
  { cols := d.cols.map (prefixName src),
    rows := d.rows.map (fun r => r.map (fun p => (prefixName src p.1, p.2))) }

/-- Preparation of one source (lines 1974-2000): sources that are empty or
lack a key column are skipped; otherwise the source is copied, PATNO is
stringified, the copy passes through `_aggregate_by_patno_eventid`, and the
non-key columns are prefixed with the source name. -/
def prepareSource (src : String) (t0 : Table) : Option Table :=
  if t0.isEmptyT then none
  else if ¬ ("PATNO" ∈ t0.cols ∧ "EVENT_ID" ∈ t0.cols) then none
  else some (prefixCols src
    (aggregate_by_patno_eventid (stringifyCol "PATNO" t0)))

/-- `pd.merge(acc, d, on=["PATNO","EVENT_ID"], how="left",
suffixes=('', '_{src}_dup'))` (lines 2029-2035): left row order is kept,
each left row is paired with every matching right row (or missing-filled
when none matches), the left columns keep their names, and a right data
column colliding with a left column gains the `_{src}_dup` suffix.  As in
pandas, missing keys match each other. -/
def leftMerge (acc : Table) (d : Table) (src : String) : Table :=
  let dataCols := d.cols.filter (fun c => c ≠ "PATNO" ∧ c ≠ "EVENT_ID")
  let outName := fun c => if c ∈ acc.cols then c ++ "_" ++ src ++ "_dup" else c
  { cols := acc.cols ++ dataCols.map outName,
    rows := acc.rows.flatMap (fun r =>
      let ms := d.rows.filter (fun m => keyOf m = keyOf r)
      if ms.isEmpty then
        [r ++ dataCols.map (fun c => (outName c, Scalar.missing))]
      else
        ms.map (fun m => r ++ dataCols.map (fun c => (outName c, getCell m c)))) }

/-- `merge_biospecimen_data(sources, merge_all=True)` on the participating
mapping: prepare each source, take the union of their key pairs as the base
frame (the Python `set` iteration order is unspecified; we use first
insertion order, which no claim observes), left-merge each non-empty
prepared source onto the accumulating frame, and run the final safeguard
aggregation pass (line 2052). -/
def merge_biospecimen_data (sources : List (String × Table)) : Table :=
  let prepared := sources.filterMap (fun nt => (prepareSource nt.1 nt.2).map (fun d => (nt.1, d)))
  let allPairs := firstDedup (prepared.flatMap (fun nd => firstDedup (keysOf nd.2)))
  if allPairs.isEmpty then { cols := [], rows := [] }
  else
    let base : Table :=
      { cols := ["PATNO", "EVENT_ID"],
        rows := allPairs.map (fun k =>
          [("PATNO", Scalar.str k.1.render), ("EVENT_ID", k.2)]) }
    let merged := prepared.foldl (fun acc nd =>
      if nd.2.isEmptyT then acc else leftMerge acc nd.2 nd.1) base
    aggregate_by_patno_eventid merged

example :
    keysOf (merge_biospecimen_data
      [("A", { cols := ["PATNO", "EVENT_ID", "X"],
               rows := [[("PATNO", .str "1"), ("EVENT_ID", .str "BL"), ("X", .int 5)]] }),
       ("B", { cols := ["PATNO", "EVENT_ID", "X"],
               rows := [[("PATNO", .str "1"), ("EVENT_ID", .str "V04"), ("X", .int 7)]] })]) =
      [(.str "1", .str "BL"), (.str "1", .str "V04")] := by decide

example :
    merge_biospecimen_data
      [("A", { cols := ["PATNO", "EVENT_ID", "X"],
               rows := [[("PATNO", .str "1"), ("EVENT_ID", .str "BL"), ("X", .int 5)]] }),
       ("B", { cols := ["PATNO", "EVENT_ID", "X"],
               rows := [[("PATNO", .str "1"), ("EVENT_ID", .str "V04"), ("X", .int 7)]] })] =
      { cols := ["PATNO", "EVENT_ID", "A_X", "B_X"],
        rows := [[("PATNO", .str "1"), ("EVENT_ID", .str "BL"),
                  ("A_X", .int 5), ("B_X", .missing)],
                 [("PATNO", .str "1"), ("EVENT_ID", .str "V04"),
                  ("A_X", .missing), ("B_X", .int 7)]] } := by decide

/- Basic lemmas about the list utilities. -/

theorem mem_firstDedupAux {α : Type} [DecidableEq α] (seen : List α) (l : List α)
    (a : α) : a ∈ firstDedupAux seen l ↔ a ∈ l ∧ a ∉ seen := by
  induction l generalizing seen with
  | nil => simp [firstDedupAux]
  | cons b l ih =>
    by_cases hb : b ∈ seen
    · simp only [firstDedupAux, if_pos hb]
      rw [ih]
      constructor
      · exact fun h => ⟨List.mem_cons_of_mem _ h.1, h.2⟩
      · rintro ⟨h1, h2⟩
        rcases List.mem_cons.mp h1 with rfl | h1
        · exact absurd hb h2
        · exact ⟨h1, h2⟩
    · simp only [firstDedupAux, if_neg hb]
      constructor
      · intro h
        rcases List.mem_cons.mp h with rfl | h
        · exact ⟨List.mem_cons_self _ _, hb⟩
        · obtain ⟨h1, h2⟩ := (ih (b :: seen)).mp h
          exact ⟨List.mem_cons_of_mem _ h1,
            fun hc => h2 (List.mem_cons_of_mem _ hc)⟩
      · rintro ⟨h1, h2⟩
        rcases List.mem_cons.mp h1 with rfl | h1
        · exact List.mem_cons_self _ _
        · by_cases hab : a = b
          · subst hab; exact List.mem_cons_self _ _
          · refine List.mem_cons_of_mem _ ((ih (b :: seen)).mpr ⟨h1, fun hc => ?_⟩)
            rcases List.mem_cons.mp hc with h | h
            · exact hab h
            · exact h2 h

theorem mem_firstDedup {α : Type} [DecidableEq α] (l : List α) (a : α) :
    a ∈ firstDedup l ↔ a ∈ l := by
  simp [firstDedup, mem_firstDedupAux]

theorem nodup_firstDedupAux {α : Type} [DecidableEq α] (seen : List α)
    (l : List α) : (firstDedupAux seen l).Nodup := by
  induction l generalizing seen with
  | nil => simp [firstDedupAux]
  | cons b l ih =>
    by_cases hb : b ∈ seen
    · simpa [firstDedupAux, if_pos hb] using ih seen
    · simp only [firstDedupAux, if_neg hb]
      refine List.Nodup.cons ?_ (ih (b :: seen))
      intro hmem
      exact ((mem_firstDedupAux _ _ _).mp hmem).2 (List.mem_cons_self b seen)

theorem nodup_firstDedup {α : Type} [DecidableEq α] (l : List α) :
    (firstDedup l).Nodup :=
  nodup_firstDedupAux [] l

theorem keepFirstByKeyAux_map_keyOf (seen : List (Scalar × Scalar))
    (rs : List Row) :
    (keepFirstByKeyAux seen rs).map keyOf = firstDedupAux seen (rs.map keyOf) := by
  induction rs generalizing seen with
  | nil => rfl
  | cons r rs ih =>
    by_cases h : keyOf r ∈ seen
    · simp [keepFirstByKeyAux, firstDedupAux, if_pos h, ih]
    · simp [keepFirstByKeyAux, firstDedupAux, if_neg h, ih]

theorem keepFirstByKey_map_keyOf (rs : List Row) :
    (keepFirstByKey rs).map keyOf = firstDedup (rs.map keyOf) :=
  keepFirstByKeyAux_map_keyOf [] rs

/- Lemmas about association-list lookup and the row operations. -/

theorem lookup_eq_some_of_mem_keys (r : Row) (c : String)
    (h : c ∈ r.map Prod.fst) : ∃ v, r.lookup c = some v := by
  induction r with
  | nil => simp at h
  | cons p r ih =>
    rcases p with ⟨n, v⟩
    by_cases hc : c = n
    · exact ⟨v, by simp [List.lookup, hc]⟩
    · simp only [List.map_cons, List.mem_cons] at h
      rcases h with h | h
      · exact absurd h hc
      · obtain ⟨w, hw⟩ := ih h
        refine ⟨w, ?_⟩
        simp only [List.lookup, beq_false_of_ne hc]
        exact hw

theorem lookup_append_of_some (r l : Row) (c : String) (v : Scalar)
    (h : r.lookup c = some v) : (r ++ l).lookup c = some v := by
  induction r with
  | nil => simp [List.lookup] at h
  | cons p r ih =>
    rcases p with ⟨n, w⟩
    by_cases hc : c = n
    · simp [List.lookup, hc] at h ⊢; exact h
    · simp only [List.lookup, List.cons_append] at h ⊢
      rw [beq_false_of_ne hc] at h ⊢
      exact ih h

theorem lookup_append_of_none (r l : Row) (c : String)
    (h : r.lookup c = none) : (r ++ l).lookup c = l.lookup c := by
  induction r with
  | nil => simp
  | cons p r ih =>
    rcases p with ⟨n, w⟩
    by_cases hc : c = n
    · simp [List.lookup, hc] at h
    · simp only [List.lookup, List.cons_append] at h ⊢
      rw [beq_false_of_ne hc] at h ⊢
      exact ih h

theorem getCell_append_left (r l : Row) (c : String)
    (h : c ∈ r.map Prod.fst) : getCell (r ++ l) c = getCell r c := by
  obtain ⟨v, hv⟩ := lookup_eq_some_of_mem_keys r c h
  simp [getCell, hv, lookup_append_of_some _ _ _ _ hv]

/-- Lookup of a mapped row: a rename function on entry names that can only
produce the target from the target itself leaves lookup at the target
untouched. -/
theorem lookup_map_rename (r : Row) (f : String → String)
    (tgt : String) (hf : ∀ c, f c = tgt → c = tgt) (htgt : f tgt = tgt) :
    (r.map (fun p => (f p.1, p.2))).lookup tgt = r.lookup tgt := by
  induction r with
  | nil => rfl
  | cons p r ih =>
    rcases p with ⟨n, v⟩
    by_cases hn : n = tgt
    · subst hn
      simp [List.lookup, htgt]
    · have h1 : (tgt == n) = false := beq_false_of_ne (Ne.symm hn)
      have h2 : (tgt == f n) = false := by
        refine beq_false_of_ne fun hc => hn (hf n hc.symm)
      simp only [List.map_cons, List.lookup, h1, h2]
      exact ih

/- Lemmas about `stringifyRow` / `stringifyCol`. -/

theorem stringifyRow_nil (c : String) : stringifyRow c [] = [] := rfl

theorem stringifyRow_cons_eq (c : String) (v : Scalar) (r : Row) :
    stringifyRow c ((c, v) :: r) =
      (c, Scalar.str v.render) :: stringifyRow c r := by
  simp [stringifyRow]

theorem stringifyRow_cons_ne {n c : String} (h : n ≠ c) (v : Scalar) (r : Row) :
    stringifyRow c ((n, v) :: r) = (n, v) :: stringifyRow c r := by
  simp [stringifyRow, h]

theorem lookup_stringifyRow (c c' : String) (r : Row) :
    (stringifyRow c r).lookup c' =
      (r.lookup c').map (fun v => if c' = c then .str v.render else v) := by
  induction r with
  | nil => rfl
  | cons p r ih =>
    rcases p with ⟨n, v⟩
    by_cases hn : n = c
    · subst hn
      rw [stringifyRow_cons_eq]
      by_cases hc' : c' = n
      · subst hc'
        simp [List.lookup]
      · have hb : (c' == n) = false := beq_false_of_ne hc'
        simp only [List.lookup, hb]
        exact ih
    · rw [stringifyRow_cons_ne hn]
      by_cases hc' : c' = n
      · subst hc'
        simp [List.lookup, hn]
      · have hb : (c' == n) = false := beq_false_of_ne hc'
        simp only [List.lookup, hb]
        exact ih

theorem getCell_stringifyRow_ne {c c' : String} (h : c' ≠ c) (r : Row) :
    getCell (stringifyRow c r) c' = getCell r c' := by
  simp only [getCell, lookup_stringifyRow, if_neg h]
  cases r.lookup c' <;> rfl

theorem getCell_stringifyRow_eq (c : String) (r : Row)
    (h : c ∈ r.map Prod.fst) :
    getCell (stringifyRow c r) c = .str (getCell r c).render := by
  obtain ⟨v, hv⟩ := lookup_eq_some_of_mem_keys r c h
  simp [getCell, lookup_stringifyRow, hv]

theorem stringifyRow_map_fst (c : String) (r : Row) :
    (stringifyRow c r).map Prod.fst = r.map Prod.fst := by
  induction r with
  | nil => rfl
  | cons p r ih =>
    rcases p with ⟨n, v⟩
    by_cases hn : n = c
    · subst hn
      rw [stringifyRow_cons_eq]
      simp [ih]
    · rw [stringifyRow_cons_ne hn]
      simp [ih]

theorem stringifyRow_idem (c : String) (r : Row) :
    stringifyRow c (stringifyRow c r) = stringifyRow c r := by
  induction r with
  | nil => rfl
  | cons p r ih =>
    rcases p with ⟨n, v⟩
    by_cases hn : n = c
    · subst hn
      rw [stringifyRow_cons_eq, stringifyRow_cons_eq, ih]
      rfl
    · rw [stringifyRow_cons_ne hn, stringifyRow_cons_ne hn, ih]

theorem stringifyCol_idem (c : String) (t : Table) :
    stringifyCol c (stringifyCol c t) = stringifyCol c t := by
  simp [stringifyCol, List.map_map, Function.comp_def, stringifyRow_idem]

theorem stringifyCol_WF {c : String} {t : Table} (h : t.WF) :
    (stringifyCol c t).WF := by
  intro r hr
  simp only [stringifyCol, List.mem_map] at hr
  obtain ⟨r0, hr0, rfl⟩ := hr
  rw [stringifyRow_map_fst]
  exact h r0 hr0

theorem stringifyRow_of_str (c : String) (r : Row)
    (h : ∀ p ∈ r, p.1 = c → ∃ s, p.2 = Scalar.str s) :
    stringifyRow c r = r := by
  induction r with
  | nil => rfl
  | cons p r ih =>
    rcases p with ⟨n, v⟩
    have ih1 := ih (fun q hq hq1 => h q (List.mem_cons_of_mem _ hq) hq1)
    by_cases hn : n = c
    · obtain ⟨s, hs⟩ := h (n, v) (List.mem_cons_self _ _) hn
      subst hs
      subst hn
      rw [stringifyRow_cons_eq, ih1]
      rfl
    · rw [stringifyRow_cons_ne hn, ih1]

/-- Claim C4: for every row where both suffixed variants are present, the
combined value obeys: both missing/empty → missing; exactly one
missing/empty → the other's value; both present with equal string renderings
→ that value; both present, parseable as numbers and numerically close →
one of them (the x-value); otherwise the two renderings joined with a pipe,
x-value first. -/
theorem claim_C4_combine_values_cases (v1 v2 : Scalar) :
    (isEmptyVal v1 = true → isEmptyVal v2 = true →
      combine_values v1 v2 = .missing) ∧
    (isEmptyVal v1 = true → isEmptyVal v2 = false →
      combine_values v1 v2 = v2) ∧
    (isEmptyVal v1 = false → isEmptyVal v2 = true →
      combine_values v1 v2 = v1) ∧
    (isEmptyVal v1 = false → isEmptyVal v2 = false →
      v1.render = v2.render → combine_values v1 v2 = v1) ∧
    (isEmptyVal v1 = false → isEmptyVal v2 = false → v1.render ≠ v2.render →
      ∀ a b, parseFloat? v1 = some a → parseFloat? v2 = some b →
        isclose a b = true → combine_values v1 v2 = v1) ∧
    (isEmptyVal v1 = false → isEmptyVal v2 = false → v1.render ≠ v2.render →
      (∀ a b, parseFloat? v1 = some a → parseFloat? v2 = some b →
        isclose a b = false) →
      combine_values v1 v2 = .str (v1.render ++ "|" ++ v2.render)) := by
  refine ⟨fun h1 h2 => ?_, fun h1 h2 => ?_, fun h1 h2 => ?_,
    fun h1 h2 h3 => ?_, fun h1 h2 h3 a b ha hb hc => ?_, fun h1 h2 h3 h4 => ?_⟩
  · simp [combine_values, h1, h2]
  · simp [combine_values, h1, h2]
  · simp [combine_values, h1, h2]
  · simp [combine_values, h1, h2, h3]
  · have e1 : (isEmptyVal v1 && isEmptyVal v2) = false := by
      rw [h1, Bool.false_and]
    unfold combine_values
    rw [e1, h1, h2, beq_false_of_ne h3, ha, hb]
    simp [hc]
  · have e1 : (isEmptyVal v1 && isEmptyVal v2) = false := by
      rw [h1, Bool.false_and]
    unfold combine_values
    rw [e1, h1, h2, beq_false_of_ne h3]
    cases hpa : parseFloat? v1 with
    | none => simp
    | some a =>
      cases hpb : parseFloat? v2 with
      | none => simp
      | some b => simp [h4 a b hpa hpb]

/-- Witness for C4 at concrete inputs: the missing/missing case, the
numerically-close case (1.0 vs 1.00) and the pipe-join case (a vs b). -/
theorem claim_C4_witness :
    combine_values .missing .missing = .missing ∧
    combine_values (.str "1.0") (.str "1.00") = .str "1.0" ∧
    combine_values (.str "a") (.str "b") = .str "a|b" := by
  refine ⟨?_, ?_, ?_⟩
  · exact (claim_C4_combine_values_cases .missing .missing).1
      (by decide) (by decide)
  · exact (claim_C4_combine_values_cases (.str "1.0") (.str "1.00")).2.2.2.2.1
      (by decide) (by decide) (by decide) (10, 1) (100, 2)
      (by decide) (by decide) (by decide)
  · exact (claim_C4_combine_values_cases (.str "a") (.str "b")).2.2.2.2.2
      (by decide) (by decide) (by decide)
      (fun a b ha hb => by
        rw [show parseFloat? (.str "a") = none by decide] at ha
        exact Option.noConfusion ha)

/-- Empty table (zero rows) lacking both key columns: the early `df.empty`
return precedes the key-column check, so no diagnostic is emitted. -/
def tableMissingKeysEmpty : Table :=
  { cols := ["A"], rows := [] }

/-- Non-empty table lacking the key columns, used as witness input. -/
def tableMissingKeys : Table :=
  { cols := ["A"], rows := [[("A", Scalar.int 1)]] }

/-- Claim C7, counterexample: the claim asserts that EVERY table missing a
key column yields a diagnostic, but an empty table missing both key columns
returns through the `df.empty` early exit (`utils.py` lines 13-14) before
the key check and warns nothing. -/
theorem claim_C7_counterexample :
    ¬ ("PATNO" ∈ tableMissingKeysEmpty.cols ∧
        "EVENT_ID" ∈ tableMissingKeysEmpty.cols) ∧
    aggregate_by_patno_eventid tableMissingKeysEmpty = tableMissingKeysEmpty ∧
    aggregate_warns tableMissingKeysEmpty = false := by
  decide

/-- Claim C7 (amended): every table missing a key column is returned
unchanged and no exception can be raised (the embedding is a total
function); the diagnostic is emitted exactly when the table is non-empty —
empty tables take the `df.empty` early exit without warning. -/
theorem claim_C7_missing_key_columns (t : Table)
    (h : ¬ ("PATNO" ∈ t.cols ∧ "EVENT_ID" ∈ t.cols)) :
    aggregate_by_patno_eventid t = t ∧ aggregate_warns t = !t.isEmptyT := by
  cases h1 : t.isEmptyT with
  | true => simp [aggregate_by_patno_eventid, aggregate_warns, h1]
  | false => simp [aggregate_by_patno_eventid, aggregate_warns, h1, h]

/-- Witness for C7 at a concrete non-empty keyless table. -/
theorem claim_C7_witness :
    aggregate_by_patno_eventid tableMissingKeys = tableMissingKeys ∧
    aggregate_warns tableMissingKeys = !tableMissingKeys.isEmptyT :=
  claim_C7_missing_key_columns tableMissingKeys (by decide)

/-- Claim C10: the Key Aggregator never mutates the caller's table.  At the
reference level, every entry of the memory below the allocation point — in
particular the argument — is unchanged by the call, and the result
reference holds exactly the pure aggregation of the argument. -/
theorem claim_C10_aggregate_no_caller_mutation (m : Mem) (r : ℕ)
    (hr : r < m.length) :
    ((aggregate_prog m r).2).getD r default = m.getD r default ∧
    ((aggregate_prog m r).2).getD (aggregate_prog m r).1 default =
      aggregate_by_patno_eventid (m.getD r default) := by
  have hkeep : ∀ x : Table, (m ++ [x]).getD r default = m.getD r default :=
    fun x => List.getD_append _ _ _ _ hr
  have hlast : ∀ x : Table, (m ++ [x]).getD m.length default = x := by
    intro x
    rw [List.getD_append_right _ _ _ _ (le_refl _)]
    simp
  unfold aggregate_prog
  by_cases h1 : (m.getD r default).isEmptyT = true
  · rw [if_pos h1]
    refine ⟨rfl, ?_⟩
    unfold aggregate_by_patno_eventid
    rw [if_pos h1]
  · rw [if_neg h1]
    by_cases h2 : ("PATNO" ∈ (m.getD r default).cols ∧
        "EVENT_ID" ∈ (m.getD r default).cols)
    · rw [if_neg (not_not_intro h2)]
      by_cases h3 : (keysOf (stringifyCol "PATNO" (m.getD r default))).Nodup
      · rw [if_pos h3]
        refine ⟨hkeep _, ?_⟩
        refine (hlast _).trans ?_
        unfold aggregate_by_patno_eventid
        rw [if_neg h1, if_neg (not_not_intro h2), if_pos h3]
      · rw [if_neg h3]
        refine ⟨hkeep _, ?_⟩
        refine (hlast _).trans ?_
        unfold aggregate_by_patno_eventid
        rw [if_neg h1, if_neg (not_not_intro h2), if_neg h3]
    · rw [if_pos h2]
      refine ⟨rfl, ?_⟩
      unfold aggregate_by_patno_eventid
      rw [if_neg h1, if_pos h2]

/-- Witness for C10: a memory holding one duplicate-key table; the caller's
slot is untouched while the result slot holds the aggregation. -/
theorem claim_C10_witness :
    ((aggregate_prog [tableMissingKeys] 0).2).getD 0 default =
      [tableMissingKeys].getD 0 default ∧
    ((aggregate_prog [tableMissingKeys] 0).2).getD
        (aggregate_prog [tableMissingKeys] 0).1 default =
      aggregate_by_patno_eventid ([tableMissingKeys].getD 0 default) :=
  claim_C10_aggregate_no_caller_mutation [tableMissingKeys] 0 (by decide)

/-- Table with one suffixed column pair collapsed by the deduplicator,
whose caller-visible object is mutated by the call. -/
def tableSuffixed : Table :=
  { cols := ["A_x"], rows := [[("A_x", Scalar.int 1)]] }

/-- Claim C6, counterexample: the claim asserts the caller-supplied table is
left unmodified, but `general_deduplicate_suffixed_columns` renames, drops
and assigns columns in place on its argument (`utils.py` lines 156-163), so
after the call the caller's table differs from what was passed in. -/
theorem claim_C6_counterexample :
    ((general_deduplicate_prog [tableSuffixed] 0).2).getD 0 default ≠
      tableSuffixed := by
  decide

/-- Claim C6 (amended): the call returns the caller's own table object, and
after the call the caller's table holds the deduplicated result — i.e. the
caller's table IS mutated whenever deduplication changes anything; it is
left unmodified exactly when the table is empty or carries no suffixed
columns (the writeless early returns). -/
theorem claim_C6_dedup_mutates_caller (m : Mem) (r : ℕ) (hr : r < m.length) :
    (general_deduplicate_prog m r).1 = r ∧
    ((general_deduplicate_prog m r).2).getD r default =
      general_deduplicate_suffixed_columns (m.getD r default) ∧
    (((m.getD r default).isEmptyT = true ∨
        ((m.getD r default).cols.filterMap baseOf).isEmpty = true) →
      (general_deduplicate_prog m r).2 = m) := by
  unfold general_deduplicate_prog
  by_cases h1 : (m.getD r default).isEmptyT = true
  · rw [if_pos h1]
    refine ⟨rfl, ?_, fun _ => rfl⟩
    unfold general_deduplicate_suffixed_columns
    rw [if_pos h1]
  · rw [if_neg h1]
    by_cases h2 : ((m.getD r default).cols.filterMap baseOf).isEmpty = true
    · rw [if_pos h2]
      refine ⟨rfl, ?_, fun _ => rfl⟩
      have hb : (m.getD r default).cols.filterMap baseOf = [] :=
        List.isEmpty_iff.mp h2
      unfold general_deduplicate_suffixed_columns
      rw [if_neg h1, hb]
      rfl
    · rw [if_neg h2]
      refine ⟨rfl, ?_, ?_⟩
      · rw [List.getD_eq_getElem _ _ (by simpa using hr)]
        simp [hr]
      · rintro (hc | hc)
        · exact absurd hc h1
        · exact absurd hc h2

/-- Witness for C6 at the concrete suffixed table. -/
theorem claim_C6_witness :
    (general_deduplicate_prog [tableSuffixed] 0).1 = 0 ∧
    ((general_deduplicate_prog [tableSuffixed] 0).2).getD 0 default =
      general_deduplicate_suffixed_columns ([tableSuffixed].getD 0 default) ∧
    ((([tableSuffixed].getD 0 default).isEmptyT = true ∨
        (([tableSuffixed].getD 0 default).cols.filterMap baseOf).isEmpty = true) →
      (general_deduplicate_prog [tableSuffixed] 0).2 = [tableSuffixed]) :=
  claim_C6_dedup_mutates_caller [tableSuffixed] 0 (by decide)

/-- Single-row table whose PATNO holds the integer 1: the fast path still
rewrites it to the string "1". -/
def tableIntPatno : Table :=
  { cols := ["PATNO", "EVENT_ID"],
    rows := [[("PATNO", Scalar.int 1), ("EVENT_ID", Scalar.str "BL")]] }

/-- Claim C2, counterexample: a duplicate-free table whose PATNO column is
numeric is NOT returned equal to the input — `utils.py` line 23 casts PATNO
to string before the duplicate check, so the integer cell 1 comes back as
the string "1" (a value and dtype change on the fast path). -/
theorem claim_C2_counterexample :
    (keysOf tableIntPatno).Nodup ∧
    ("PATNO" ∈ tableIntPatno.cols ∧ "EVENT_ID" ∈ tableIntPatno.cols) ∧
    aggregate_by_patno_eventid tableIntPatno ≠ tableIntPatno := by
  decide

/-- Claim C2 (amended): for a table containing both key columns whose PATNO
cells are already strings and whose keys are duplicate-free, the aggregator
returns the table exactly equal to its input (same rows, values and
constructor-level types), and the group-by machinery is never entered.  In
general the fast path returns the input with PATNO re-rendered to string,
which is the identity precisely on string-valued PATNO columns. -/
theorem claim_C2_fast_path_identity (t : Table)
    (hP : "PATNO" ∈ t.cols) (hE : "EVENT_ID" ∈ t.cols)
    (hstr : ∀ r ∈ t.rows, ∀ p ∈ r, p.1 = "PATNO" →
      p.2 = Scalar.str p.2.render)
    (hnd : (keysOf t).Nodup) :
    aggregate_by_patno_eventid t = t ∧ usedGroupbyMachinery t = false := by
  have hs : stringifyCol "PATNO" t = t := by
    rcases t with ⟨cols, rows⟩
    unfold stringifyCol
    simp only [Table.mk.injEq, true_and]
    calc rows.map (stringifyRow "PATNO")
        = rows.map id := by
          refine List.map_congr_left fun r hr => stringifyRow_of_str _ _ ?_
          exact fun p hp hp1 => ⟨p.2.render, hstr r hr p hp hp1⟩
      _ = rows := List.map_id rows
  have hnd1 : (keysOf (stringifyCol "PATNO" t)).Nodup := by rw [hs]; exact hnd
  constructor
  · unfold aggregate_by_patno_eventid
    by_cases h1 : t.isEmptyT = true
    · rw [if_pos h1]
    · rw [if_neg h1, if_neg (not_not_intro ⟨hP, hE⟩), if_pos hnd1, hs]
  · unfold usedGroupbyMachinery
    rw [decide_eq_true hnd1]
    simp

/-- Concrete duplicate-free string-PATNO table for the C2 witness. -/
def tableStrPatno : Table :=
  { cols := ["PATNO", "EVENT_ID", "X"],
    rows := [[("PATNO", Scalar.str "1"), ("EVENT_ID", Scalar.str "BL"),
              ("X", Scalar.int 7)],
             [("PATNO", Scalar.str "1"), ("EVENT_ID", Scalar.str "V04"),
              ("X", Scalar.int 8)]] }

/-- Witness for C2 at a concrete duplicate-free table. -/
theorem claim_C2_witness :
    aggregate_by_patno_eventid tableStrPatno = tableStrPatno ∧
    usedGroupbyMachinery tableStrPatno = false :=
  claim_C2_fast_path_identity tableStrPatno (by decide) (by decide)
    (by decide) (by decide)

/- String-suffix lemmas for the Suffix Deduplicator. -/

theorem lastTwo_spec (c : String) (a b : Char) (h : lastTwo c = [a, b]) :
    c.data = c.data.dropLast.dropLast ++ [a, b] := by
  unfold lastTwo at h
  rcases hrev : c.data.reverse with _ | ⟨x, _ | ⟨y, rest⟩⟩
  · rw [hrev] at h; simp at h
  · rw [hrev] at h; simp at h
  · rw [hrev] at h
    have h' : [y, x] = [a, b] := by simpa using h
    injection h' with h1 h2
    injection h2 with h3 _
    subst h1
    subst h3
    have hc : c.data = rest.reverse ++ [y, x] := by
      have := congrArg List.reverse hrev
      simpa using this
    have hdl : (rest.reverse ++ [y, x]).dropLast.dropLast = rest.reverse := by
      rw [show rest.reverse ++ [y, x] = (rest.reverse ++ [y]) ++ [x] by simp,
        List.dropLast_concat, List.dropLast_concat]
    rw [hc, hdl]

theorem string_eq_of_data (c d : String) (h : c.data = d.data) : c = d := by
  rcases c with ⟨cs⟩
  rcases d with ⟨ds⟩
  exact congrArg String.mk h

theorem data_append (c d : String) : (c ++ d).data = c.data ++ d.data := rfl

theorem baseOf_eq_some (c b : String) (h : baseOf c = some b) :
    c = b ++ "_x" ∨ c = b ++ "_y" := by
  unfold baseOf at h
  by_cases h1 : lastTwo c = ['_', 'x']
  · rw [if_pos h1] at h
    obtain rfl : dropLast2 c = b := by injection h
    left
    refine string_eq_of_data _ _ ?_
    rw [data_append]
    exact lastTwo_spec c '_' 'x' h1
  · rw [if_neg h1] at h
    by_cases h2 : lastTwo c = ['_', 'y']
    · rw [if_pos h2] at h
      obtain rfl : dropLast2 c = b := by injection h
      right
      refine string_eq_of_data _ _ ?_
      rw [data_append]
      exact lastTwo_spec c '_' 'y' h2
    · rw [if_neg h2] at h
      exact Option.noConfusion h

theorem baseOf_append_x (s : String) : baseOf (s ++ "_x") = some s := by
  have hdata : (s ++ "_x").data = s.data ++ ['_', 'x'] := data_append s "_x"
  have h1 : lastTwo (s ++ "_x") = ['_', 'x'] := by
    unfold lastTwo
    rw [hdata]
    simp
  have h2 : dropLast2 (s ++ "_x") = s := by
    refine string_eq_of_data _ _ ?_
    unfold dropLast2
    show ((s ++ "_x").data.dropLast.dropLast : List Char) = s.data
    rw [hdata]
    rw [show s.data ++ ['_', 'x'] = (s.data ++ ['_']) ++ ['x'] by simp,
      List.dropLast_concat, List.dropLast_concat]
  unfold baseOf
  rw [if_pos h1, h2]

theorem baseOf_append_y (s : String) : baseOf (s ++ "_y") = some s := by
  have hdata : (s ++ "_y").data = s.data ++ ['_', 'y'] := data_append s "_y"
  have h1 : lastTwo (s ++ "_y") = ['_', 'y'] := by
    unfold lastTwo
    rw [hdata]
    simp
  have hne : lastTwo (s ++ "_y") ≠ ['_', 'x'] := by
    rw [h1]
    decide
  have h2 : dropLast2 (s ++ "_y") = s := by
    refine string_eq_of_data _ _ ?_
    unfold dropLast2
    show ((s ++ "_y").data.dropLast.dropLast : List Char) = s.data
    rw [hdata]
    rw [show s.data ++ ['_', 'y'] = (s.data ++ ['_']) ++ ['y'] by simp,
      List.dropLast_concat, List.dropLast_concat]
  unfold baseOf
  rw [if_neg hne, if_pos h1, h2]

/-- Column-shape of one deduplication step: every resulting column is either
the processed base name itself or an original column other than the two
suffixed variants of that base. -/
theorem dedupStep_cols_sub (t : Table) (b : String) :
    ∀ c ∈ (dedupStep t b).cols,
      c = b ∨ (c ∈ t.cols ∧ c ≠ b ++ "_x" ∧ c ≠ b ++ "_y") := by
  intro c hc
  unfold dedupStep at hc
  by_cases h1 : (b ++ "_x") ∈ t.cols ∧ (b ++ "_y") ∈ t.cols
  · rw [if_pos h1] at hc
    simp only [Table.dropCols, Table.setCol] at hc
    by_cases hb : b ∈ t.cols
    · rw [if_pos hb] at hc
      simp only [List.mem_filter, decide_eq_true_eq] at hc
      refine Or.inr ⟨hc.1, ?_, ?_⟩ <;> intro hcc <;>
        exact hc.2 (by simp [hcc])
    · rw [if_neg hb] at hc
      simp only [List.mem_filter, List.mem_append, List.mem_singleton,
        decide_eq_true_eq] at hc
      rcases hc.1 with hcm | hcm
      · refine Or.inr ⟨hcm, ?_, ?_⟩ <;> intro hcc <;>
          exact hc.2 (by simp [hcc])
      · exact Or.inl hcm
  · rw [if_neg h1] at hc
    by_cases h2 : (b ++ "_x") ∈ t.cols
    · rw [if_pos h2] at hc
      simp only [Table.renameCol, List.mem_map] at hc
      obtain ⟨c0, hc0, hc0e⟩ := hc
      by_cases hcx : c0 = b ++ "_x"
      · rw [if_pos hcx] at hc0e
        exact Or.inl hc0e.symm
      · rw [if_neg hcx] at hc0e
        subst hc0e
        refine Or.inr ⟨hc0, hcx, fun hcy => ?_⟩
        exact h1 ⟨h2, hcy ▸ hc0⟩
    · rw [if_neg h2] at hc
      by_cases h3 : (b ++ "_y") ∈ t.cols
      · rw [if_pos h3] at hc
        simp only [Table.renameCol, List.mem_map] at hc
        obtain ⟨c0, hc0, hc0e⟩ := hc
        by_cases hcy : c0 = b ++ "_y"
        · rw [if_pos hcy] at hc0e
          exact Or.inl hc0e.symm
        · rw [if_neg hcy] at hc0e
          subst hc0e
          refine Or.inr ⟨hc0, fun hcx => ?_, hcy⟩
          exact h2 (hcx ▸ hc0)
      · rw [if_neg h3] at hc
        refine Or.inr ⟨hc, fun hcx => ?_, fun hcy => ?_⟩
        · exact h2 (hcx ▸ hc)
        · exact h3 (hcy ▸ hc)

/-- Fold invariant for the deduplication loop: if every pending base name is
itself unsuffixed and every current column is either unsuffixed or a
suffixed variant of a pending base, then after the loop no suffixed column
remains. -/
theorem dedup_foldl_no_suffix (R : List String) (t : Table)
    (hR : ∀ b ∈ R, baseOf b = none)
    (hinv : ∀ c ∈ t.cols,
      baseOf c = none ∨ ∃ b ∈ R, c = b ++ "_x" ∨ c = b ++ "_y") :
    ∀ c ∈ (R.foldl dedupStep t).cols, baseOf c = none := by
  induction R generalizing t with
  | nil =>
    intro c hc
    rcases hinv c hc with h | ⟨b, hb, _⟩
    · exact h
    · exact absurd hb (List.not_mem_nil b)
  | cons b R ih =>
    intro c hc
    refine ih (dedupStep t b) (fun b' hb' => hR b' (List.mem_cons_of_mem _ hb'))
      ?_ c hc
    intro c' hc'
    rcases dedupStep_cols_sub t b c' hc' with rfl | ⟨hmem, hnx, hny⟩
    · exact Or.inl (hR c' (List.mem_cons_self _ _))
    · rcases hinv c' hmem with h | ⟨b', hb', hb'e⟩
      · exact Or.inl h
      · rcases List.mem_cons.mp hb' with rfl | hb'
        · rcases hb'e with h | h
          · exact absurd h hnx
          · exact absurd h hny
        · exact Or.inr ⟨b', hb', hb'e⟩

/-- Zero-row table carrying a suffixed column: `df.empty` short-circuits the
deduplicator, so the suffix survives. -/
def tableEmptySuffixed : Table :=
  { cols := ["A_x"], rows := [] }

/-- Table with a doubly suffixed column name: processing base "A_x" renames
`A_x_x` to `A_x`, which still carries a suffix marker. -/
def tableNestedSuffix : Table :=
  { cols := ["A_x_x"], rows := [[("A_x_x", Scalar.int 1)]] }

/-- Claim C5, counterexample: the no-suffix-leakage invariant fails (a) on a
zero-row table with a suffixed column, which the `df.empty` early return
passes through untouched — so `A_x`, the `_x` form of base `A` that had a
suffixed variant in the input, remains a column of the output — and (b) on
a doubly suffixed column `A_x_x`, which the rename branch turns into the
still-suffixed column `A_x`. -/
theorem claim_C5_counterexample :
    "A_x" ∈ (general_deduplicate_suffixed_columns tableEmptySuffixed).cols ∧
    "A_x" ∈ (general_deduplicate_suffixed_columns tableNestedSuffix).cols := by
  decide

/-- Claim C5 (amended): for every table with at least one row, none of whose
columns carries a doubled suffix (no base name extracted from a suffixed
column is itself suffixed), the deduplicated table has no column carrying a
collision-suffix marker; in particular, for every base name that had a
suffixed variant in the input, neither base_x nor base_y is a column of the
output. -/
theorem claim_C5_no_suffix_leakage (t : Table) (hrows : t.rows ≠ [])
    (hnest : ∀ b ∈ t.cols.filterMap baseOf, baseOf b = none) :
    (∀ c ∈ (general_deduplicate_suffixed_columns t).cols, baseOf c = none) ∧
    (∀ b ∈ t.cols.filterMap baseOf,
      (b ++ "_x") ∉ (general_deduplicate_suffixed_columns t).cols ∧
      (b ++ "_y") ∉ (general_deduplicate_suffixed_columns t).cols) := by
  have hmain :
      ∀ c ∈ (general_deduplicate_suffixed_columns t).cols, baseOf c = none := by
    unfold general_deduplicate_suffixed_columns
    by_cases h1 : t.isEmptyT = true
    · rw [if_pos h1]
      have hcols : t.cols = [] := by
        unfold Table.isEmptyT at h1
        rcases Bool.or_eq_true_iff.mp h1 with h | h
        · exact absurd (List.isEmpty_iff.mp h) hrows
        · exact List.isEmpty_iff.mp h
      intro c hc
      rw [hcols] at hc
      exact absurd hc (List.not_mem_nil c)
    · rw [if_neg h1]
      refine dedup_foldl_no_suffix _ t ?_ ?_
      · intro b hb
        exact hnest b ((mem_firstDedup _ _).mp hb)
      · intro c hc
        cases hb : baseOf c with
        | none => exact Or.inl rfl
        | some b0 =>
          refine Or.inr ⟨b0, ?_, baseOf_eq_some c b0 hb⟩
          exact (mem_firstDedup _ _).mpr (List.mem_filterMap.mpr ⟨c, hc, hb⟩)
  refine ⟨hmain, fun b hb => ⟨fun hcx => ?_, fun hcy => ?_⟩⟩
  · have := hmain _ hcx
    rw [baseOf_append_x] at this
    exact Option.noConfusion this
  · have := hmain _ hcy
    rw [baseOf_append_y] at this
    exact Option.noConfusion this

/-- Concrete suffixed table for the C5 witness: a combine pair, a lone `_x`
and a lone `_y`. -/
def tableManySuffixed : Table :=
  { cols := ["PATNO", "INFODT_x", "INFODT_y", "ORIG_x", "Lab_y"],
    rows := [[("PATNO", Scalar.str "1"), ("INFODT_x", Scalar.str "01/2015"),
              ("INFODT_y", Scalar.str "01/2025"), ("ORIG_x", Scalar.str "a"),
              ("Lab_y", Scalar.int 5)]] }

/-- Witness for C5 at the concrete suffixed table. -/
theorem claim_C5_witness :
    (∀ c ∈ (general_deduplicate_suffixed_columns tableManySuffixed).cols,
      baseOf c = none) ∧
    (∀ b ∈ tableManySuffixed.cols.filterMap baseOf,
      (b ++ "_x") ∉ (general_deduplicate_suffixed_columns tableManySuffixed).cols ∧
      (b ++ "_y") ∉ (general_deduplicate_suffixed_columns tableManySuffixed).cols) :=
  claim_C5_no_suffix_leakage tableManySuffixed (by decide) (by decide)

/- Sorting lemmas: totality and asymmetry of the code-point comparison, and
invariance of the two-element sort under swapping. -/

theorem char_eq_of_toNat_eq {a b : Char} (h : a.toNat = b.toNat) : a = b :=
  Char.eq_of_val_eq (UInt32.eq_of_toBitVec_eq (BitVec.eq_of_toNat_eq h))

theorem charListLt_total (as bs : List Char) (h : as ≠ bs) :
    charListLt as bs = true ∨ charListLt bs as = true := by
  induction as generalizing bs with
  | nil =>
    cases bs with
    | nil => exact absurd rfl h
    | cons b bs => exact Or.inl rfl
  | cons a as ih =>
    cases bs with
    | nil => exact Or.inr rfl
    | cons b bs =>
      rcases Nat.lt_trichotomy a.toNat b.toNat with hlt | heq | hgt
      · exact Or.inl (by simp [charListLt, hlt])
      · have hab : a = b := char_eq_of_toNat_eq heq
        subst hab
        have hne : as ≠ bs := fun hc => h (by rw [hc])
        rcases ih bs hne with h1 | h1
        · exact Or.inl (by simp [charListLt, h1])
        · exact Or.inr (by simp [charListLt, h1])
      · exact Or.inr (by simp [charListLt, hgt])

theorem charListLt_asymm (as bs : List Char) (h : charListLt as bs = true) :
    charListLt bs as = false := by
  induction as generalizing bs with
  | nil =>
    cases bs with
    | nil => exact rfl
    | cons b bs => rfl
  | cons a as ih =>
    cases bs with
    | nil => simp [charListLt] at h
    | cons b bs =>
      rcases Nat.lt_trichotomy a.toNat b.toNat with hlt | heq | hgt
      · simp [charListLt, hlt, Nat.lt_asymm hlt, Nat.lt_irrefl]
      · have hab : a = b := char_eq_of_toNat_eq heq
        subst hab
        simp only [charListLt, Nat.lt_irrefl, if_false] at h ⊢
        exact ih bs h
      · simp [charListLt, hgt, Nat.lt_asymm hgt] at h

theorem pyStrLt_total (x y : String) (h : x ≠ y) :
    pyStrLt x y = true ∨ pyStrLt y x = true := by
  refine charListLt_total _ _ fun hc => h (string_eq_of_data _ _ hc)

theorem pyStrLt_asymm (x y : String) (h : pyStrLt x y = true) :
    pyStrLt y x = false :=
  charListLt_asymm _ _ h

theorem sortAsc_pair (x y : String) : sortAsc [x, y] = sortAsc [y, x] := by
  by_cases hxy : x = y
  · rw [hxy]
  · show insertAsc x (insertAsc y []) = insertAsc y (insertAsc x [])
    show insertAsc x [y] = insertAsc y [x]
    rcases pyStrLt_total x y hxy with h | h
    · have h' : pyStrLt y x = false := pyStrLt_asymm x y h
      simp [insertAsc, h, h']
    · have h' : pyStrLt x y = false := pyStrLt_asymm y x h
      simp [insertAsc, h, h']

/- List helper lemmas for the aggregation proofs. -/

theorem firstDedupAux_length_le {α : Type} [DecidableEq α] (seen : List α)
    (l : List α) : (firstDedupAux seen l).length ≤ l.length := by
  induction l generalizing seen with
  | nil => simp [firstDedupAux]
  | cons a l ih =>
    by_cases h : a ∈ seen
    · simp only [firstDedupAux, if_pos h]
      exact Nat.le_succ_of_le (ih seen)
    · simp only [firstDedupAux, if_neg h, List.length_cons]
      exact Nat.succ_le_succ (ih (a :: seen))

theorem firstDedup_const {α : Type} [DecidableEq α] (l : List α) (v : α)
    (hv : ∀ x ∈ l, x = v) (hne : l ≠ []) : firstDedup l = [v] := by
  have haux : ∀ l' : List α, (∀ x ∈ l', x = v) →
      firstDedupAux [v] l' = [] := by
    intro l' h'
    induction l' with
    | nil => rfl
    | cons a l' ih =>
      have ha : a = v := h' a (List.mem_cons_self _ _)
      subst ha
      simp only [firstDedupAux, List.mem_singleton, if_pos rfl]
      exact ih fun x hx => h' x (List.mem_cons_of_mem _ hx)
  cases l with
  | nil => exact absurd rfl hne
  | cons a l =>
    have ha : a = v := hv a (List.mem_cons_self _ _)
    subst ha
    show firstDedupAux [] (a :: l) = [a]
    simp only [firstDedupAux, List.not_mem_nil, if_neg (fun h => h)]
    rw [haux l fun x hx => hv x (List.mem_cons_of_mem _ hx)]

/-- With duplicate-free images, at most one element of the list maps to any
given value. -/
theorem filter_map_eq_le_one {α β : Type} [DecidableEq α] [DecidableEq β]
    (l : List α) (f : α → β) (h : (l.map f).Nodup) (k : β) :
    (l.filter (fun a => f a = k)).length ≤ 1 := by
  induction l with
  | nil => simp
  | cons x l ih =>
    simp only [List.map_cons, List.nodup_cons] at h
    by_cases hx : f x = k
    · have hnil : l.filter (fun a => f a = k) = [] := by
        rw [List.filter_eq_nil_iff]
        intro a ha
        simp only [decide_eq_true_eq]
        intro hak
        exact h.1 (List.mem_map.mpr ⟨a, ha, by rw [hak, hx]⟩)
      simp [List.filter_cons, hx, hnil]
    · have : (decide (f x = k)) = false := by simp [hx]
      simp only [List.filter_cons, this, Bool.false_eq_true, if_false]
      exact ih h.2

/- Lemmas about the slow aggregation path. -/

theorem keyOf_aggRow (k : Scalar × Scalar) (rest : Row) :
    keyOf (("PATNO", k.1) :: ("EVENT_ID", k.2) :: rest) = k := rfl

theorem lookup_map_pair (l : List String) (f : String → Scalar) (c : String) :
    (l.map (fun c' => (c', f c'))).lookup c =
      if c ∈ l then some (f c) else none := by
  induction l with
  | nil => simp
  | cons a l ih =>
    by_cases hca : c = a
    · subst hca
      simp [List.lookup]
    · have hb : (c == a) = false := beq_false_of_ne hca
      simp only [List.map_cons, List.lookup, hb, ih, List.mem_cons]
      by_cases hcl : c ∈ l
      · rw [if_pos hcl, if_pos (Or.inr hcl)]
      · rw [if_neg hcl, if_neg (by rintro (h | h); exact hca h; exact hcl h)]

theorem getCell_aggRow (k : Scalar × Scalar) (aggCols : List String)
    (f : String → Scalar) (c : String) (hcP : c ≠ "PATNO")
    (hcE : c ≠ "EVENT_ID") (hc : c ∈ aggCols) :
    getCell (("PATNO", k.1) :: ("EVENT_ID", k.2) ::
      aggCols.map (fun c' => (c', f c'))) c = f c := by
  unfold getCell
  simp only [List.lookup, beq_false_of_ne hcP, beq_false_of_ne hcE]
  rw [lookup_map_pair, if_pos hc]
  rfl

theorem filter_key_map_nil (G : List (Scalar × Scalar))
    (f : Scalar × Scalar → Row) (hf : ∀ g, keyOf (f g) = g)
    (k : Scalar × Scalar) (hk : k ∉ G) :
    (G.map f).filter (fun r => keyOf r = k) = [] := by
  rw [List.filter_eq_nil_iff]
  intro r hr
  obtain ⟨g, hg, rfl⟩ := List.mem_map.mp hr
  simp only [hf g, decide_eq_true_eq]
  exact fun hgk => hk (hgk ▸ hg)

theorem filter_key_map_singleton (G : List (Scalar × Scalar))
    (f : Scalar × Scalar → Row) (hf : ∀ g, keyOf (f g) = g)
    (hG : G.Nodup) (k : Scalar × Scalar) (hk : k ∈ G) :
    (G.map f).filter (fun r => keyOf r = k) = [f k] := by
  induction G with
  | nil => exact absurd hk (List.not_mem_nil k)
  | cons g G ih =>
    simp only [List.nodup_cons] at hG
    by_cases hgk : g = k
    · subst hgk
      simp only [List.map_cons, List.filter_cons, hf g, decide_eq_true_eq]
      rw [if_pos trivial, filter_key_map_nil G f hf g hG.1]
    · rcases List.mem_cons.mp hk with rfl | hk'
      · exact absurd rfl hgk
      · simp only [List.map_cons, List.filter_cons, hf g]
        rw [if_neg (by simp [hgk])]
        exact ih hG.2 hk'

theorem groupKeys_nodup (t1 : Table) : (groupKeys t1).Nodup :=
  (nodup_firstDedup _).filter _

theorem mem_groupKeys (t1 : Table) (k : Scalar × Scalar) :
    k ∈ groupKeys t1 ↔
      k ∈ keysOf t1 ∧ k.1 ≠ Scalar.missing ∧ k.2 ≠ Scalar.missing := by
  unfold groupKeys
  rw [List.mem_filter]
  rw [mem_firstDedup]
  simp

/-- Entering the slow path: non-empty table with both key columns and
duplicate keys after PATNO stringification. -/
theorem aggregate_eq_slow (t : Table) (h1 : t.isEmptyT = false)
    (h2 : "PATNO" ∈ t.cols ∧ "EVENT_ID" ∈ t.cols)
    (h3 : ¬ (keysOf (stringifyCol "PATNO" t)).Nodup) :
    aggregate_by_patno_eventid t = slowAgg t.cols (stringifyCol "PATNO" t) := by
  unfold aggregate_by_patno_eventid
  rw [if_neg (by simp [h1]), if_neg (not_not_intro h2), if_neg h3]

theorem isEmptyT_false_of (t : Table) (hP : "PATNO" ∈ t.cols)
    (hr : t.rows ≠ []) : t.isEmptyT = false := by
  rcases ht : t.rows with _ | ⟨r, rs⟩
  · exact absurd ht hr
  · rcases hc : t.cols with _ | ⟨c, cs⟩
    · rw [hc] at hP
      exact absurd hP (List.not_mem_nil _)
    · unfold Table.isEmptyT
      rw [ht, hc]
      rfl

/-- Keys of the grouped output: one row per surviving group key. -/
theorem slowAgg_rows_map_keyOf (origCols : List String) (t1 : Table)
    (h : origCols.filter (fun c => c ≠ "PATNO" ∧ c ≠ "EVENT_ID") ≠ []) :
    (slowAgg origCols t1).rows.map keyOf = groupKeys t1 := by
  unfold slowAgg
  rw [if_neg (by simpa using h)]
  simp only [List.map_map]
  calc (groupKeys t1).map _
      = (groupKeys t1).map id := by
        refine List.map_congr_left fun g _ => keyOf_aggRow g _
    _ = groupKeys t1 := List.map_id _

/-- Cell list of a group of the aggregated output: the single aggregated
cell, for any surviving group key and any non-key column. -/
theorem slowAgg_groupVals (origCols : List String) (t1 : Table)
    (c : String) (hcP : c ≠ "PATNO") (hcE : c ≠ "EVENT_ID")
    (hc : c ∈ origCols.filter (fun c => c ≠ "PATNO" ∧ c ≠ "EVENT_ID"))
    (k : Scalar × Scalar) (hk : k ∈ groupKeys t1) :
    groupVals (slowAgg origCols t1) k c = [aggCell t1 k c] := by
  have hne : origCols.filter (fun c => c ≠ "PATNO" ∧ c ≠ "EVENT_ID") ≠ [] :=
    fun hnil => by rw [hnil] at hc; exact List.not_mem_nil c hc
  unfold slowAgg
  rw [if_neg (by simpa using hne)]
  unfold groupVals
  rw [filter_key_map_singleton _ _ (fun g => keyOf_aggRow g _)
    (groupKeys_nodup t1) k hk]
  rw [List.map_singleton, getCell_aggRow k _ _ c hcP hcE hc]

/-- The number of distinct non-null values of a group is bounded by the
number of rows in the group. -/
theorem nuniqueVals_le_length (vs : List Scalar) :
    nuniqueVals vs ≤ vs.length := by
  unfold nuniqueVals
  calc (firstDedup (nonMissing vs)).length
      ≤ (nonMissing vs).length := firstDedupAux_length_le [] _
    _ ≤ vs.length := List.length_filter_le _ _

/-- A group with more than one distinct non-null value forces duplicate
keys in the table. -/
theorem multi_group_not_nodup (t1 : Table) (k : Scalar × Scalar) (c : String)
    (hm : 1 < nuniqueVals (groupVals t1 k c)) : ¬ (keysOf t1).Nodup := by
  intro hnd
  have hle := filter_map_eq_le_one t1.rows keyOf hnd k
  have hlen : (groupVals t1 k c).length =
      (t1.rows.filter (fun r => keyOf r = k)).length := List.length_map _ _
  have := lt_of_lt_of_le hm (nuniqueVals_le_length _)
  rw [hlen] at this
  exact absurd (lt_of_lt_of_le this hle) (lt_irrefl 1)

/-- A group key with at least one row is a key of the table. -/
theorem mem_keysOf_of_groupVals_ne_nil (t1 : Table) (k : Scalar × Scalar)
    (c : String) (h : groupVals t1 k c ≠ []) : k ∈ keysOf t1 := by
  unfold groupVals at h
  rcases hf : t1.rows.filter (fun r => keyOf r = k) with _ | ⟨r, rs⟩
  · rw [hf] at h
    exact absurd rfl h
  · have hr : r ∈ t1.rows.filter (fun r => keyOf r = k) := by
      rw [hf]; exact List.mem_cons_self _ _
    have := List.mem_filter.mp hr
    have hk : keyOf r = k := by simpa using this.2
    exact hk ▸ List.mem_map.mpr ⟨r, this.1, rfl⟩

/-- Rows of the table are non-empty when some group has a row. -/
theorem rows_ne_nil_of_groupVals_ne_nil (t1 : Table) (k : Scalar × Scalar)
    (c : String) (h : groupVals t1 k c ≠ []) : t1.rows ≠ [] := by
  intro hnil
  apply h
  unfold groupVals
  rw [hnil]
  rfl

/-- Aggregated cell of a conflicted group: pipe-join of the sorted distinct
renderings. -/
theorem aggCell_multi (t1 : Table) (k : Scalar × Scalar) (c : String)
    (hm : 1 < nuniqueVals (groupVals t1 k c)) :
    aggCell t1 k c = .str (string_agg_slow (groupVals t1 k c)) := by
  unfold aggCell
  rw [if_pos hm]

/-- Aggregated cell of a single-valued group: the value itself, missing
included. -/
theorem aggCell_const (t1 : Table) (k : Scalar × Scalar) (c : String)
    (v : Scalar) (hone : ∀ x ∈ groupVals t1 k c, x = v)
    (hne : groupVals t1 k c ≠ []) : aggCell t1 k c = v := by
  unfold aggCell
  by_cases hv : v = Scalar.missing
  · subst hv
    have hnm : nonMissing (groupVals t1 k c) = [] := by
      unfold nonMissing
      rw [List.filter_eq_nil_iff]
      intro x hx
      simp [hone x hx]
    rw [if_neg (by simp [nuniqueVals, hnm, firstDedup, firstDedupAux])]
    simp [firstNonMissing, hnm]
  · have hnm : nonMissing (groupVals t1 k c) = groupVals t1 k c := by
      refine List.filter_eq_self.mpr fun x hx => by simp [hone x hx, hv]
    have hfd : firstDedup (groupVals t1 k c) = [v] :=
      firstDedup_const _ v hone hne
    rw [if_neg (by simp [nuniqueVals, hnm, hfd])]
    unfold firstNonMissing
    rw [hnm]
    rcases hgv : groupVals t1 k c with _ | ⟨x, xs⟩
    · exact absurd hgv hne
    · have : x = v := hone x (by rw [hgv]; exact List.mem_cons_self _ _)
      simp [this]

theorem list_single_of_le_one {α : Type} (l : List α) (h : l.length ≤ 1)
    (hne : l ≠ []) : ∃ x, l = [x] := by
  cases l with
  | nil => exact absurd rfl hne
  | cons x xs =>
    cases xs with
    | nil => exact ⟨x, rfl⟩
    | cons y ys => simp at h

/-- Under duplicate-free keys, a non-empty single-valued group is literally
a one-row group holding that value. -/
theorem groupVals_of_nodup (t1 : Table) (hnd : (keysOf t1).Nodup)
    (k : Scalar × Scalar) (c : String) (v : Scalar)
    (hone : ∀ x ∈ groupVals t1 k c, x = v)
    (hne : groupVals t1 k c ≠ []) : groupVals t1 k c = [v] := by
  have hle : (groupVals t1 k c).length ≤ 1 := by
    unfold groupVals
    rw [List.length_map]
    exact filter_map_eq_le_one t1.rows keyOf hnd k
  obtain ⟨x, hx⟩ := list_single_of_le_one _ hle hne
  rw [hx]
  rw [hone x (by rw [hx]; exact List.mem_cons_self _ _)]

/-- Stringification preserves emptiness of the row list. -/
theorem stringify_rows_ne_nil (t : Table)
    (h : (stringifyCol "PATNO" t).rows ≠ []) : t.rows ≠ [] := by
  intro hnil
  apply h
  unfold stringifyCol
  rw [hnil]
  rfl

/-- Claim C9: after aggregation, every cell of a key-group whose rows all
hold the identical value retains that single value (original constructor
type included), for any non-key column — in particular when other groups of
the same column were pipe-joined and the column was promoted to a
string-capable dtype, which leaves single-valued groups untouched. -/
theorem claim_C9_single_value_groups (t : Table)
    (hP : "PATNO" ∈ t.cols) (hE : "EVENT_ID" ∈ t.cols)
    (c : String) (hc : c ∈ t.cols) (hcP : c ≠ "PATNO") (hcE : c ≠ "EVENT_ID")
    (k : Scalar × Scalar) (hk1 : k.1 ≠ Scalar.missing)
    (hk2 : k.2 ≠ Scalar.missing) (v : Scalar)
    (hone : ∀ x ∈ groupVals (stringifyCol "PATNO" t) k c, x = v)
    (hne : groupVals (stringifyCol "PATNO" t) k c ≠ []) :
    groupVals (aggregate_by_patno_eventid t) k c = [v] := by
  have hrows : t.rows ≠ [] :=
    stringify_rows_ne_nil t
      (rows_ne_nil_of_groupVals_ne_nil _ k c hne)
  have hEmpty : t.isEmptyT = false := isEmptyT_false_of t hP hrows
  by_cases hnd : (keysOf (stringifyCol "PATNO" t)).Nodup
  · have : aggregate_by_patno_eventid t = stringifyCol "PATNO" t := by
      unfold aggregate_by_patno_eventid
      rw [if_neg (by simp [hEmpty]), if_neg (not_not_intro ⟨hP, hE⟩),
        if_pos hnd]
    rw [this]
    exact groupVals_of_nodup _ hnd k c v hone hne
  · rw [aggregate_eq_slow t hEmpty ⟨hP, hE⟩ hnd]
    have hcf : c ∈ t.cols.filter (fun c => c ≠ "PATNO" ∧ c ≠ "EVENT_ID") :=
      List.mem_filter.mpr ⟨hc, by simp [hcP, hcE]⟩
    have hkG : k ∈ groupKeys (stringifyCol "PATNO" t) :=
      (mem_groupKeys _ k).mpr
        ⟨mem_keysOf_of_groupVals_ne_nil _ k c hne, hk1, hk2⟩
    rw [slowAgg_groupVals t.cols _ c hcP hcE hcf k hkG]
    rw [aggCell_const _ k c v hone hne]

/-- Table with two key-groups: group (1, BL) holds the identical integer 47
in both rows, group (1, V04) holds conflicting values that get pipe-joined
(promoting the column); used as the C9 witness. -/
def tableTwoGroups : Table :=
  { cols := ["PATNO", "EVENT_ID", "AGE"],
    rows := [[("PATNO", Scalar.str "1"), ("EVENT_ID", Scalar.str "BL"),
              ("AGE", Scalar.int 47)],
             [("PATNO", Scalar.str "1"), ("EVENT_ID", Scalar.str "BL"),
              ("AGE", Scalar.int 47)],
             [("PATNO", Scalar.str "1"), ("EVENT_ID", Scalar.str "V04"),
              ("AGE", Scalar.int 50)],
             [("PATNO", Scalar.str "1"), ("EVENT_ID", Scalar.str "V04"),
              ("AGE", Scalar.int 51)]] }

/-- Witness for C9: the single-valued group keeps the integer 47 even though
the other group of the same column is pipe-joined. -/
theorem claim_C9_witness :
    groupVals (aggregate_by_patno_eventid tableTwoGroups)
      (Scalar.str "1", Scalar.str "BL") "AGE" = [Scalar.int 47] :=
  claim_C9_single_value_groups tableTwoGroups (by decide) (by decide)
    "AGE" (by decide) (by decide) (by decide)
    (Scalar.str "1", Scalar.str "BL") (by decide) (by decide)
    (Scalar.int 47) (by decide) (by decide)

/-- General form of the conflicted-group result: a group with more than one
distinct non-missing value aggregates to the pipe-joined sorted distinct
renderings of its cells. -/
theorem aggregate_multi_group (t : Table)
    (hP : "PATNO" ∈ t.cols) (hE : "EVENT_ID" ∈ t.cols)
    (c : String) (hc : c ∈ t.cols) (hcP : c ≠ "PATNO") (hcE : c ≠ "EVENT_ID")
    (k : Scalar × Scalar) (hk1 : k.1 ≠ Scalar.missing)
    (hk2 : k.2 ≠ Scalar.missing)
    (hm : 1 < nuniqueVals (groupVals (stringifyCol "PATNO" t) k c)) :
    groupVals (aggregate_by_patno_eventid t) k c =
      [.str (string_agg_slow (groupVals (stringifyCol "PATNO" t) k c))] := by
  have hne : groupVals (stringifyCol "PATNO" t) k c ≠ [] := by
    intro hnil
    rw [hnil] at hm
    simp [nuniqueVals, nonMissing, firstDedup, firstDedupAux] at hm
  have hrows : t.rows ≠ [] :=
    stringify_rows_ne_nil t (rows_ne_nil_of_groupVals_ne_nil _ k c hne)
  have hEmpty : t.isEmptyT = false := isEmptyT_false_of t hP hrows
  have hnd : ¬ (keysOf (stringifyCol "PATNO" t)).Nodup :=
    multi_group_not_nodup _ k c hm
  rw [aggregate_eq_slow t hEmpty ⟨hP, hE⟩ hnd]
  have hcf : c ∈ t.cols.filter (fun c => c ≠ "PATNO" ∧ c ≠ "EVENT_ID") :=
    List.mem_filter.mpr ⟨hc, by simp [hcP, hcE]⟩
  have hkG : k ∈ groupKeys (stringifyCol "PATNO" t) :=
    (mem_groupKeys _ k).mpr
      ⟨mem_keysOf_of_groupVals_ne_nil _ k c hne, hk1, hk2⟩
  rw [slowAgg_groupVals t.cols _ c hcP hcE hcf k hkG]
  rw [aggCell_multi _ k c hm]

/-- Two-row table at a fixed key holding scalars `a` then `b` in column VAL,
for the order-independence part of C3. -/
def twoRowTable (a b : Scalar) : Table :=
  { cols := ["PATNO", "EVENT_ID", "VAL"],
    rows := [[("PATNO", Scalar.str "9999"), ("EVENT_ID", Scalar.str "V04"),
              ("VAL", a)],
             [("PATNO", Scalar.str "9999"), ("EVENT_ID", Scalar.str "V04"),
              ("VAL", b)]] }

theorem twoRowTable_groupVals (a b : Scalar) :
    groupVals (stringifyCol "PATNO" (twoRowTable a b))
      (Scalar.str "9999", Scalar.str "V04") "VAL" = [a, b] := rfl

/-- The pipe-join aggregate of two non-missing cells is order-independent:
distinct renderings are sorted lexicographically, equal renderings
collapse. -/
theorem string_agg_slow_comm (a b : Scalar) (ha : a ≠ Scalar.missing)
    (hb : b ≠ Scalar.missing) :
    string_agg_slow [a, b] = string_agg_slow [b, a] := by
  have hna : nonMissing [a, b] = [a, b] := by simp [nonMissing, ha, hb]
  have hnb : nonMissing [b, a] = [b, a] := by simp [nonMissing, ha, hb]
  unfold string_agg_slow
  rw [hna, hnb]
  simp only [List.map_cons, List.map_nil]
  by_cases hr : a.render = b.render
  · rw [hr]
  · have h1 : firstDedup [a.render, b.render] = [a.render, b.render] := by
      simp [firstDedup, firstDedupAux, Ne.symm hr]
    have h2 : firstDedup [b.render, a.render] = [b.render, a.render] := by
      simp [firstDedup, firstDedupAux, hr]
    rw [h1, h2, sortAsc_pair]

/-- Claim C3: a key-group with two or more distinct non-missing values in a
non-key column aggregates to the pipe-joined string of the distinct string
renderings in sorted lexicographic order; in particular, aggregating a row
holding `a` followed by a row holding `b` (both non-missing, distinct)
yields the same cell as aggregating them in the opposite order. -/
theorem claim_C3_sorted_pipe_join (t : Table)
    (hP : "PATNO" ∈ t.cols) (hE : "EVENT_ID" ∈ t.cols)
    (c : String) (hc : c ∈ t.cols) (hcP : c ≠ "PATNO") (hcE : c ≠ "EVENT_ID")
    (k : Scalar × Scalar) (hk1 : k.1 ≠ Scalar.missing)
    (hk2 : k.2 ≠ Scalar.missing)
    (hm : 1 < nuniqueVals (groupVals (stringifyCol "PATNO" t) k c)) :
    (groupVals (aggregate_by_patno_eventid t) k c =
      [.str (string_agg_slow (groupVals (stringifyCol "PATNO" t) k c))]) ∧
    (∀ a b : Scalar, a ≠ Scalar.missing → b ≠ Scalar.missing → a ≠ b →
      groupVals (aggregate_by_patno_eventid (twoRowTable a b))
        (Scalar.str "9999", Scalar.str "V04") "VAL" =
      groupVals (aggregate_by_patno_eventid (twoRowTable b a))
        (Scalar.str "9999", Scalar.str "V04") "VAL") := by
  constructor
  · exact aggregate_multi_group t hP hE c hc hcP hcE k hk1 hk2 hm
  · intro a b ha hb hab
    have hmab : ∀ x y : Scalar, x ≠ Scalar.missing → y ≠ Scalar.missing →
        x ≠ y →
        1 < nuniqueVals (groupVals (stringifyCol "PATNO" (twoRowTable x y))
          (Scalar.str "9999", Scalar.str "V04") "VAL") := by
      intro x y hx hy hxy
      rw [twoRowTable_groupVals]
      have h1 : nonMissing [x, y] = [x, y] := by simp [nonMissing, hx, hy]
      have h2 : firstDedup [x, y] = [x, y] := by
        simp [firstDedup, firstDedupAux, Ne.symm hxy]
      simp [nuniqueVals, h1, h2]
    rw [aggregate_multi_group (twoRowTable a b) (by simp [twoRowTable])
      (by simp [twoRowTable]) "VAL" (by simp [twoRowTable]) (by decide)
      (by decide) (Scalar.str "9999", Scalar.str "V04") (by decide)
      (by decide) (hmab a b ha hb hab)]
    rw [aggregate_multi_group (twoRowTable b a) (by simp [twoRowTable])
      (by simp [twoRowTable]) "VAL" (by simp [twoRowTable]) (by decide)
      (by decide) (Scalar.str "9999", Scalar.str "V04") (by decide)
      (by decide) (hmab b a hb ha (Ne.symm hab))]
    rw [twoRowTable_groupVals, twoRowTable_groupVals]
    rw [string_agg_slow_comm a b ha hb]

/-- Witness for C3: the spec's own example — NUPSOURC values 1 and 2 at one
key pipe-join to "1|2", identically in either insertion order. -/
theorem claim_C3_witness :
    (groupVals (aggregate_by_patno_eventid (twoRowTable (Scalar.int 1)
        (Scalar.int 2))) (Scalar.str "9999", Scalar.str "V04") "VAL" =
      [Scalar.str "1|2"]) ∧
    (groupVals (aggregate_by_patno_eventid (twoRowTable (Scalar.int 2)
        (Scalar.int 1))) (Scalar.str "9999", Scalar.str "V04") "VAL" =
      groupVals (aggregate_by_patno_eventid (twoRowTable (Scalar.int 1)
        (Scalar.int 2))) (Scalar.str "9999", Scalar.str "V04") "VAL") := by
  constructor
  · have := (claim_C3_sorted_pipe_join (twoRowTable (Scalar.int 1)
      (Scalar.int 2)) (by decide) (by decide) "VAL" (by decide) (by decide)
      (by decide) (Scalar.str "9999", Scalar.str "V04") (by decide)
      (by decide) (by decide)).1
    rw [this]
    decide
  · exact ((claim_C3_sorted_pipe_join (twoRowTable (Scalar.int 1)
      (Scalar.int 2)) (by decide) (by decide) "VAL" (by decide) (by decide)
      (by decide) (Scalar.str "9999", Scalar.str "V04") (by decide)
      (by decide) (by decide)).2 (Scalar.int 2) (Scalar.int 1)
      (by decide) (by decide) (by decide))

/-- Keys of the stringified table have a string PATNO part and inherit the
EVENT_ID part unchanged. -/
theorem keysOf_stringify_nonmissing (t : Table) (hwf : t.WF)
    (hP : "PATNO" ∈ t.cols)
    (hev : ∀ r ∈ t.rows, getCell r "EVENT_ID" ≠ Scalar.missing) :
    ∀ k ∈ keysOf (stringifyCol "PATNO" t),
      k.1 ≠ Scalar.missing ∧ k.2 ≠ Scalar.missing := by
  intro k hk
  unfold keysOf stringifyCol at hk
  simp only [List.map_map, List.mem_map] at hk
  obtain ⟨r, hr, rfl⟩ := hk
  constructor
  · show getCell (stringifyRow "PATNO" r) "PATNO" ≠ Scalar.missing
    rw [getCell_stringifyRow_eq "PATNO" r (by rw [hwf r hr]; exact hP)]
    exact fun h => Scalar.noConfusion h
  · show getCell (stringifyRow "PATNO" r) "EVENT_ID" ≠ Scalar.missing
    rw [getCell_stringifyRow_ne (by decide) r]
    exact hev r hr

/-- Key specification of the aggregator: under well-formedness, both key
columns present and non-missing EVENT_ID cells, the output keys are
duplicate-free and enumerate exactly the keys of the PATNO-stringified
input. -/
theorem aggregate_keys_spec (t : Table) (hwf : t.WF)
    (hP : "PATNO" ∈ t.cols) (hE : "EVENT_ID" ∈ t.cols)
    (hev : ∀ r ∈ t.rows, getCell r "EVENT_ID" ≠ Scalar.missing) :
    (keysOf (aggregate_by_patno_eventid t)).Nodup ∧
    ∀ k, k ∈ keysOf (aggregate_by_patno_eventid t) ↔
      k ∈ keysOf (stringifyCol "PATNO" t) := by
  by_cases hEmp : t.isEmptyT = true
  · have hrows : t.rows = [] := by
      unfold Table.isEmptyT at hEmp
      rcases Bool.or_eq_true_iff.mp hEmp with h | h
      · exact List.isEmpty_iff.mp h
      · rw [List.isEmpty_iff.mp h] at hP
        exact absurd hP (List.not_mem_nil _)
    have hagg : aggregate_by_patno_eventid t = t := by
      unfold aggregate_by_patno_eventid
      rw [if_pos hEmp]
    rw [hagg]
    unfold keysOf stringifyCol
    rw [hrows]
    exact ⟨List.nodup_nil, fun k => Iff.rfl⟩
  · have hEmp' : t.isEmptyT = false := Bool.eq_false_iff.mpr hEmp
    by_cases hnd : (keysOf (stringifyCol "PATNO" t)).Nodup
    · have hagg : aggregate_by_patno_eventid t = stringifyCol "PATNO" t := by
        unfold aggregate_by_patno_eventid
        rw [if_neg hEmp, if_neg (not_not_intro ⟨hP, hE⟩), if_pos hnd]
      rw [hagg]
      exact ⟨hnd, fun k => Iff.rfl⟩
    · rw [aggregate_eq_slow t hEmp' ⟨hP, hE⟩ hnd]
      by_cases hA : t.cols.filter (fun c => c ≠ "PATNO" ∧ c ≠ "EVENT_ID") = []
      · have hkeys : keysOf (slowAgg t.cols (stringifyCol "PATNO" t)) =
            firstDedup (keysOf (stringifyCol "PATNO" t)) := by
          unfold slowAgg
          rw [if_pos (by simpa using hA)]
          exact keepFirstByKey_map_keyOf _
        rw [hkeys]
        exact ⟨nodup_firstDedup _, fun k => mem_firstDedup _ k⟩
      · have hkeys : keysOf (slowAgg t.cols (stringifyCol "PATNO" t)) =
            groupKeys (stringifyCol "PATNO" t) :=
          slowAgg_rows_map_keyOf t.cols _ hA
        have hgk : groupKeys (stringifyCol "PATNO" t) =
            firstDedup (keysOf (stringifyCol "PATNO" t)) := by
          unfold groupKeys
          refine List.filter_eq_self.mpr fun k hk => ?_
          have := keysOf_stringify_nonmissing t hwf hP hev k
            ((mem_firstDedup _ k).mp hk)
          simp [this.1, this.2]
        rw [hkeys, hgk]
        exact ⟨nodup_firstDedup _, fun k => mem_firstDedup _ k⟩

/-- Two rows with the same PATNO and a missing EVENT_ID: pandas `groupby`
drops NaN-keyed groups, so the aggregation path erases the key entirely. -/
def tableNaNEvent : Table :=
  { cols := ["PATNO", "EVENT_ID", "X"],
    rows := [[("PATNO", Scalar.str "1"), ("EVENT_ID", Scalar.missing),
              ("X", Scalar.int 1)],
             [("PATNO", Scalar.str "1"), ("EVENT_ID", Scalar.missing),
              ("X", Scalar.int 2)]] }

/-- Claim C1, counterexample: the key ("1", NaN) is present in the input
(which contains both key columns), yet the output of the aggregation is
empty — the groupby (default `dropna=True`) silently drops the NaN-keyed
group, so a key present in the input is absent from the output. -/
theorem claim_C1_counterexample :
    (Scalar.str "1", Scalar.missing) ∈ keysOf tableNaNEvent ∧
    keysOf (aggregate_by_patno_eventid tableNaNEvent) = [] := by
  decide

/-- Claim C1 (amended): for every well-formed table with both key columns
whose EVENT_ID cells are all non-missing, the aggregated output has exactly
one row per distinct (PATNO normalized to string, EVENT_ID) key of the
input: no key appears in two output rows and none is absent.  Without the
non-missing restriction, rows whose key contains a missing component are
dropped by the groupby pass. -/
theorem claim_C1_key_uniqueness (t : Table) (hwf : t.WF)
    (hP : "PATNO" ∈ t.cols) (hE : "EVENT_ID" ∈ t.cols)
    (hev : ∀ r ∈ t.rows, getCell r "EVENT_ID" ≠ Scalar.missing) :
    (keysOf (aggregate_by_patno_eventid t)).Nodup ∧
    ∀ k, k ∈ keysOf (aggregate_by_patno_eventid t) ↔
      k ∈ keysOf (stringifyCol "PATNO" t) :=
  aggregate_keys_spec t hwf hP hE hev

/-- Witness for C1 at the concrete two-group duplicate-key table. -/
theorem claim_C1_witness :
    (keysOf (aggregate_by_patno_eventid tableTwoGroups)).Nodup ∧
    ∀ k, k ∈ keysOf (aggregate_by_patno_eventid tableTwoGroups) ↔
      k ∈ keysOf (stringifyCol "PATNO" tableTwoGroups) :=
  claim_C1_key_uniqueness tableTwoGroups (by decide) (by decide) (by decide)
    (by decide)

/- Infrastructure for the consolidation (merge) theorem. -/

/-- Non-key columns of a table, in order. -/
def dataCols (d : Table) : List String :=
  d.cols.filter (fun c => c ≠ "PATNO" ∧ c ≠ "EVENT_ID")

theorem lookup_eq_none_of_not_mem (r : Row) (c : String)
    (h : c ∉ r.map Prod.fst) : r.lookup c = none := by
  induction r with
  | nil => rfl
  | cons p r ih =>
    rcases p with ⟨n, v⟩
    simp only [List.map_cons, List.mem_cons] at h
    push_neg at h
    simp only [List.lookup, beq_false_of_ne h.1]
    exact ih h.2

/-- Variant of `lookup_map_rename` whose hypothesis ranges only over the
entries of the row. -/
theorem lookup_map_rename_row (r : Row) (f : String → String) (tgt : String)
    (hf : ∀ p ∈ r, f p.1 = tgt → p.1 = tgt) (htgt : f tgt = tgt) :
    (r.map (fun p => (f p.1, p.2))).lookup tgt = r.lookup tgt := by
  induction r with
  | nil => rfl
  | cons p r ih =>
    rcases p with ⟨n, v⟩
    by_cases hn : n = tgt
    · subst hn
      simp [List.lookup, htgt]
    · have h1 : (tgt == n) = false := beq_false_of_ne (Ne.symm hn)
      have h2 : (tgt == f n) = false := by
        refine beq_false_of_ne fun hc => hn (hf (n, v) (List.mem_cons_self _ _) hc.symm)
      simp only [List.map_cons, List.lookup, h1, h2]
      exact ih fun p hp => hf p (List.mem_cons_of_mem _ hp)

theorem underscore_not_in_patno : '_' ∉ ("PATNO" : String).data := by decide

theorem prefixName_eq_patno (src c : String)
    (h : prefixName src c = "PATNO") : c = "PATNO" := by
  unfold prefixName at h
  by_cases hk : c = "PATNO" ∨ c = "EVENT_ID"
  · rw [if_pos hk] at h
    exact h
  · rw [if_neg hk] at h
    exfalso
    have hmem : '_' ∈ (src ++ "_" ++ c).data := by
      rw [data_append, data_append]
      refine List.mem_append.mpr (Or.inl ?_)
      refine List.mem_append.mpr (Or.inr ?_)
      decide
    rw [h] at hmem
    exact underscore_not_in_patno hmem

theorem prefixName_patno (src : String) : prefixName src "PATNO" = "PATNO" := by
  simp [prefixName]

theorem prefixName_eventid (src : String) :
    prefixName src "EVENT_ID" = "EVENT_ID" := by
  simp [prefixName]

/-- Key of a prefixed row, provided no entry's prefixed name collides with
EVENT_ID (collision with PATNO is impossible: the prefixed form contains an
underscore and PATNO does not). -/
theorem keyOf_prefixRow (src : String) (r : Row)
    (h2 : ∀ p ∈ r, prefixName src p.1 = "EVENT_ID" → p.1 = "EVENT_ID") :
    keyOf (r.map (fun p => (prefixName src p.1, p.2))) = keyOf r := by
  unfold keyOf getCell
  rw [lookup_map_rename_row r _ _
      (fun p _ hp => prefixName_eq_patno src p.1 hp) (prefixName_patno src),
    lookup_map_rename_row r _ _ h2 (prefixName_eventid src)]

theorem prefixCols_WF (src : String) (d : Table) (hwf : d.WF) :
    (prefixCols src d).WF := by
  intro r hr
  unfold prefixCols at hr ⊢
  simp only [List.mem_map] at hr
  obtain ⟨r0, hr0, rfl⟩ := hr
  have := hwf r0 hr0
  calc (r0.map (fun p => (prefixName src p.1, p.2))).map Prod.fst
      = (r0.map Prod.fst).map (prefixName src) := by
        rw [List.map_map, List.map_map]; rfl
    _ = d.cols.map (prefixName src) := by rw [this]

theorem keysOf_prefixCols (src : String) (d : Table) (hwf : d.WF)
    (h2 : ∀ c ∈ d.cols, prefixName src c = "EVENT_ID" → c = "EVENT_ID") :
    keysOf (prefixCols src d) = keysOf d := by
  unfold keysOf prefixCols
  simp only [List.map_map]
  refine List.map_congr_left fun r hr => ?_
  show keyOf (r.map (fun p => (prefixName src p.1, p.2))) = keyOf r
  refine keyOf_prefixRow src r fun p hp hpe => ?_
  refine h2 p.1 ?_ hpe
  have := hwf r hr
  rw [← this]
  exact List.mem_map.mpr ⟨p, hp, rfl⟩

theorem keepFirstByKeyAux_subset (seen : List (Scalar × Scalar))
    (rs : List Row) : ∀ r ∈ keepFirstByKeyAux seen rs, r ∈ rs := by
  induction rs generalizing seen with
  | nil => intro r hr; exact absurd hr (List.not_mem_nil r)
  | cons r0 rs ih =>
    intro r hr
    by_cases h : keyOf r0 ∈ seen
    · simp only [keepFirstByKeyAux, if_pos h] at hr
      exact List.mem_cons_of_mem _ (ih seen r hr)
    · simp only [keepFirstByKeyAux, if_neg h] at hr
      rcases List.mem_cons.mp hr with rfl | hr
      · exact List.mem_cons_self _ _
      · exact List.mem_cons_of_mem _ (ih _ r hr)

/-- The aggregator produces well-formed tables from well-formed tables. -/
theorem aggregate_WF (t : Table) (hwf : t.WF) :
    (aggregate_by_patno_eventid t).WF := by
  unfold aggregate_by_patno_eventid
  by_cases h1 : t.isEmptyT = true
  · rw [if_pos h1]; exact hwf
  · rw [if_neg h1]
    by_cases h2 : ("PATNO" ∈ t.cols ∧ "EVENT_ID" ∈ t.cols)
    · rw [if_neg (not_not_intro h2)]
      by_cases h3 : (keysOf (stringifyCol "PATNO" t)).Nodup
      · rw [if_pos h3]
        exact stringifyCol_WF hwf
      · rw [if_neg h3]
        unfold slowAgg
        by_cases h4 :
            (t.cols.filter (fun c => c ≠ "PATNO" ∧ c ≠ "EVENT_ID")).isEmpty = true
        · rw [if_pos h4]
          intro r hr
          exact stringifyCol_WF hwf r (keepFirstByKeyAux_subset [] _ r hr)
        · rw [if_neg h4]
          intro r hr
          simp only [List.mem_map] at hr
          obtain ⟨k, hk, rfl⟩ := hr
          show "PATNO" :: "EVENT_ID" ::
            ((t.cols.filter _).map (fun c => (c, aggCell _ k c))).map Prod.fst = _
          rw [List.map_map,
            show ((Prod.fst ∘ fun c => (c, aggCell (stringifyCol "PATNO" t) k c)) :
              String → String) = id from rfl,
            List.map_id]
    · rw [if_pos h2]
      exact hwf

/-- The non-key columns of the aggregated table are those of the input, in
order. -/
theorem dataCols_aggregate (t : Table) :
    dataCols (aggregate_by_patno_eventid t) = dataCols t := by
  unfold aggregate_by_patno_eventid
  by_cases h1 : t.isEmptyT = true
  · rw [if_pos h1]
  · rw [if_neg h1]
    by_cases h2 : ("PATNO" ∈ t.cols ∧ "EVENT_ID" ∈ t.cols)
    · rw [if_neg (not_not_intro h2)]
      by_cases h3 : (keysOf (stringifyCol "PATNO" t)).Nodup
      · rw [if_pos h3]; rfl
      · rw [if_neg h3]
        unfold slowAgg
        by_cases h4 :
            (t.cols.filter (fun c => c ≠ "PATNO" ∧ c ≠ "EVENT_ID")).isEmpty = true
        · rw [if_pos h4]; rfl
        · rw [if_neg h4]
          unfold dataCols
          show (("PATNO" :: "EVENT_ID" :: t.cols.filter _).filter _ : List String) = _
          rw [List.filter_cons_of_neg (by decide),
            List.filter_cons_of_neg (by decide)]
          exact List.filter_eq_self.mpr fun c hc => (List.mem_filter.mp hc).2
    · rw [if_pos h2]

theorem flatMap_pure {α β : Type} (l : List α) (g : α → β) :
    (l.flatMap fun a => [g a]) = l.map g := by
  induction l with
  | nil => rfl
  | cons a l ih => simp [ih]

theorem flatMap_congr_mem {α β : Type} (l : List α) (f g : α → List β)
    (h : ∀ a ∈ l, f a = g a) : l.flatMap f = l.flatMap g := by
  induction l with
  | nil => rfl
  | cons a l ih =>
    simp only [List.flatMap_cons]
    rw [h a (List.mem_cons_self _ _),
      ih fun a ha => h a (List.mem_cons_of_mem _ ha)]

theorem map_keyOf_flatMap (rows : List Row) (F : Row → List Row) :
    (rows.flatMap F).map keyOf = rows.flatMap (fun r => (F r).map keyOf) := by
  induction rows with
  | nil => rfl
  | cons r rows ih => simp only [List.flatMap_cons, List.map_append, ih]

/-- Specification of one left merge (`pd.merge(..., how="left")` with
pre-prefixed, collision-free right columns): column list extension,
well-formedness, key preservation under right-unique keys, and per-row
provenance — every output row extends a base row with the same key,
preserves its cells, and holds missing in every right data column when the
right table lacks the key. -/
theorem leftMerge_spec (acc d : Table) (src : String)
    (hwfacc : acc.WF) (hP : "PATNO" ∈ acc.cols) (hE : "EVENT_ID" ∈ acc.cols)
    (hdisj : ∀ c ∈ dataCols d, c ∉ acc.cols) :
    (leftMerge acc d src).cols = acc.cols ++ dataCols d ∧
    (leftMerge acc d src).WF ∧
    ((keysOf d).Nodup → keysOf (leftMerge acc d src) = keysOf acc) ∧
    (∀ r' ∈ (leftMerge acc d src).rows, ∃ r ∈ acc.rows,
      keyOf r' = keyOf r ∧
      (∀ c v, r.lookup c = some v → r'.lookup c = some v) ∧
      (keyOf r ∉ keysOf d → ∀ c ∈ dataCols d,
        r'.lookup c = some Scalar.missing)) := by
  have houtName : (dataCols d).map
      (fun c => if c ∈ acc.cols then c ++ "_" ++ src ++ "_dup" else c) =
      dataCols d := by
    calc (dataCols d).map _
        = (dataCols d).map id :=
          List.map_congr_left fun c hc => if_neg (hdisj c hc)
      _ = dataCols d := List.map_id _
  have hextra_fst : ∀ g : String → Scalar,
      ((dataCols d).map (fun c =>
        ((if c ∈ acc.cols then c ++ "_" ++ src ++ "_dup" else c), g c))).map
          Prod.fst = dataCols d := by
    intro g
    rw [List.map_map]
    exact houtName
  have hrow_facts : ∀ r ∈ acc.rows, ∀ g : String → Scalar,
      keyOf (r ++ (dataCols d).map (fun c =>
        ((if c ∈ acc.cols then c ++ "_" ++ src ++ "_dup" else c), g c))) =
        keyOf r ∧
      (∀ c v, r.lookup c = some v →
        (r ++ (dataCols d).map (fun c =>
          ((if c ∈ acc.cols then c ++ "_" ++ src ++ "_dup" else c),
            g c))).lookup c = some v) ∧
      (∀ c ∈ dataCols d,
        (r ++ (dataCols d).map (fun c =>
          ((if c ∈ acc.cols then c ++ "_" ++ src ++ "_dup" else c),
            g c))).lookup c = some (g c)) := by
    intro r hr g
    have hrn : r.map Prod.fst = acc.cols := hwfacc r hr
    refine ⟨?_, ?_, ?_⟩
    · unfold keyOf
      rw [getCell_append_left _ _ _ (by rw [hrn]; exact hP),
        getCell_append_left _ _ _ (by rw [hrn]; exact hE)]
    · exact fun c v hv => lookup_append_of_some _ _ _ _ hv
    · intro c hc
      rw [lookup_append_of_none _ _ _
        (lookup_eq_none_of_not_mem _ _ (by rw [hrn]; exact hdisj c hc))]
      have hmapform : (dataCols d).map (fun c =>
          ((if c ∈ acc.cols then c ++ "_" ++ src ++ "_dup" else c), g c)) =
          (dataCols d).map (fun c => (c, g c)) :=
        List.map_congr_left fun c' hc' => by rw [if_neg (hdisj c' hc')]
      rw [hmapform, lookup_map_pair, if_pos hc]
  refine ⟨?_, ?_, ?_, ?_⟩
  · show acc.cols ++ (dataCols d).map _ = acc.cols ++ dataCols d
    rw [houtName]
  · intro r' hr'
    show r'.map Prod.fst = acc.cols ++ (dataCols d).map _
    rw [houtName]
    obtain ⟨r, hr, hr'mem⟩ := List.mem_flatMap.mp hr'
    have hrn : r.map Prod.fst = acc.cols := hwfacc r hr
    by_cases hms : (d.rows.filter (fun m => keyOf m = keyOf r)).isEmpty = true
    · rw [if_pos hms] at hr'mem
      rcases List.mem_singleton.mp hr'mem with rfl
      rw [List.map_append, hrn]
      exact congrArg (fun l => acc.cols ++ l)
        (hextra_fst (fun _ => Scalar.missing))
    · rw [if_neg hms] at hr'mem
      obtain ⟨m, _, rfl⟩ := List.mem_map.mp hr'mem
      rw [List.map_append, hrn]
      exact congrArg (fun l => acc.cols ++ l)
        (hextra_fst (fun c => getCell m c))
  · intro hnd
    dsimp only [keysOf, leftMerge]
    refine Eq.trans (map_keyOf_flatMap acc.rows _) ?_
    have hper : ∀ r ∈ acc.rows,
        ((if (d.rows.filter (fun m => keyOf m = keyOf r)).isEmpty = true then
            [r ++ (dataCols d).map (fun c =>
              ((if c ∈ acc.cols then c ++ "_" ++ src ++ "_dup" else c),
                Scalar.missing))]
          else (d.rows.filter (fun m => keyOf m = keyOf r)).map (fun m =>
            r ++ (dataCols d).map (fun c =>
              ((if c ∈ acc.cols then c ++ "_" ++ src ++ "_dup" else c),
                getCell m c)))).map keyOf) = [keyOf r] := by
      intro r hr
      by_cases hms : (d.rows.filter (fun m => keyOf m = keyOf r)).isEmpty = true
      · rw [if_pos hms]
        rw [List.map_singleton, (hrow_facts r hr _).1]
      · rw [if_neg hms]
        have hle : (d.rows.filter (fun m => keyOf m = keyOf r)).length ≤ 1 :=
          filter_map_eq_le_one d.rows keyOf hnd (keyOf r)
        have hnee : d.rows.filter (fun m => keyOf m = keyOf r) ≠ [] := by
          intro hc
          rw [hc] at hms
          exact hms rfl
        obtain ⟨m, hm⟩ := list_single_of_le_one _ hle hnee
        rw [hm, List.map_singleton, List.map_singleton,
          (hrow_facts r hr _).1]
    exact (flatMap_congr_mem _ _ _ hper).trans (flatMap_pure _ _)
  · intro r' hr'
    obtain ⟨r, hr, hr'mem⟩ := List.mem_flatMap.mp hr'
    refine ⟨r, hr, ?_⟩
    by_cases hms : (d.rows.filter (fun m => keyOf m = keyOf r)).isEmpty = true
    · rw [if_pos hms] at hr'mem
      rcases List.mem_singleton.mp hr'mem with rfl
      refine ⟨(hrow_facts r hr _).1, (hrow_facts r hr _).2.1, ?_⟩
      intro _ c hc
      exact (hrow_facts r hr _).2.2 c hc
    · rw [if_neg hms] at hr'mem
      obtain ⟨m, hmmem, rfl⟩ := List.mem_map.mp hr'mem
      refine ⟨(hrow_facts r hr _).1, (hrow_facts r hr _).2.1, ?_⟩
      intro hnotin c hc
      exfalso
      have := List.mem_filter.mp hmmem
      have hkm : keyOf m = keyOf r := by simpa using this.2
      exact hnotin (hkm ▸ List.mem_map.mpr ⟨m, this.1, rfl⟩)

/-- The merge loop over prepared sources (lines 2015-2046), named for the
fold lemma below; `merge_biospecimen_data` uses this exact fold. -/
def mergeFold (L : List (String × Table)) (acc : Table) : Table :=
  L.foldl (fun acc nd =>
    if nd.2.isEmptyT then acc else leftMerge acc nd.2 nd.1) acc

/-- Specification of the whole merge loop: columns accumulate in order,
well-formedness and the base key list are preserved, every output row
descends from a base row with the same key and cells, and a key absent from
a source leaves all of that source's data columns missing. -/
theorem mergeFold_spec (L : List (String × Table)) (acc : Table)
    (hwfacc : acc.WF) (hP : "PATNO" ∈ acc.cols) (hE : "EVENT_ID" ∈ acc.cols)
    (hLd : ∀ nd ∈ L, (keysOf nd.2).Nodup ∧ nd.2.rows ≠ [] ∧
      "PATNO" ∈ nd.2.cols)
    (hdisj : ∀ nd ∈ L, ∀ c ∈ dataCols nd.2, c ∉ acc.cols)
    (hcross : (L.flatMap (fun nd => dataCols nd.2)).Nodup) :
    (mergeFold L acc).cols = acc.cols ++ L.flatMap (fun nd => dataCols nd.2) ∧
    (mergeFold L acc).WF ∧
    keysOf (mergeFold L acc) = keysOf acc ∧
    (∀ r' ∈ (mergeFold L acc).rows, ∃ r ∈ acc.rows, keyOf r' = keyOf r ∧
      (∀ c v, r.lookup c = some v → r'.lookup c = some v)) ∧
    (∀ nd ∈ L, ∀ r' ∈ (mergeFold L acc).rows, keyOf r' ∉ keysOf nd.2 →
      ∀ c ∈ dataCols nd.2, r'.lookup c = some Scalar.missing) := by
  induction L generalizing acc with
  | nil =>
    refine ⟨by simp [mergeFold], hwfacc, rfl, ?_, ?_⟩
    · exact fun r' hr' => ⟨r', hr', rfl, fun c v hv => hv⟩
    · intro nd hnd
      exact absurd hnd (List.not_mem_nil nd)
  | cons nd0 L' ih =>
    rcases nd0 with ⟨n, d⟩
    have hd := hLd (n, d) (List.mem_cons_self _ _)
    have hdE : d.isEmptyT = false := isEmptyT_false_of d hd.2.2 hd.2.1
    have hstep : mergeFold ((n, d) :: L') acc =
        mergeFold L' (leftMerge acc d n) := by
      unfold mergeFold
      rw [List.foldl_cons]
      congr 1
      rw [if_neg (by simp [hdE])]
    have LM := leftMerge_spec acc d n hwfacc hP hE
      (hdisj (n, d) (List.mem_cons_self _ _))
    have hnodupStruct :=
      (List.nodup_append.mp (by
        have : ((n, d) :: L').flatMap (fun nd => dataCols nd.2) =
            dataCols d ++ L'.flatMap (fun nd => dataCols nd.2) := by
          simp
        rw [this] at hcross
        exact hcross))
    have hcols' : (leftMerge acc d n).cols = acc.cols ++ dataCols d := LM.1
    have hP' : "PATNO" ∈ (leftMerge acc d n).cols := by
      rw [hcols']; exact List.mem_append.mpr (Or.inl hP)
    have hE' : "EVENT_ID" ∈ (leftMerge acc d n).cols := by
      rw [hcols']; exact List.mem_append.mpr (Or.inl hE)
    have hdisj' : ∀ nd ∈ L', ∀ c ∈ dataCols nd.2,
        c ∉ (leftMerge acc d n).cols := by
      intro nd hnd c hc
      rw [hcols']
      intro hmem
      rcases List.mem_append.mp hmem with h | h
      · exact hdisj nd (List.mem_cons_of_mem _ hnd) c hc h
      · exact hnodupStruct.2.2.symm
          (List.mem_flatMap.mpr ⟨nd, hnd, hc⟩) h
    have IH := ih (leftMerge acc d n) LM.2.1 hP' hE'
      (fun nd hnd => hLd nd (List.mem_cons_of_mem _ hnd)) hdisj'
      hnodupStruct.2.1
    rw [hstep]
    refine ⟨?_, IH.2.1, ?_, ?_, ?_⟩
    · rw [IH.1, hcols', List.append_assoc, List.flatMap_cons]
    · rw [IH.2.2.1, LM.2.2.1 hd.1]
    · intro r' hr'
      obtain ⟨r'', hr'', hkey'', hpres''⟩ := IH.2.2.2.1 r' hr'
      obtain ⟨r, hr, hkey, hpres, _⟩ := LM.2.2.2 r'' hr''
      exact ⟨r, hr, hkey'' ▸ hkey, fun c v hv => hpres'' c v (hpres c v hv)⟩
    · intro nd hnd r' hr' hknot c hc
      rcases List.mem_cons.mp hnd with rfl | hnd'
      · obtain ⟨r'', hr'', hkey'', hpres''⟩ := IH.2.2.2.1 r' hr'
        obtain ⟨r, hr, hkey, _, hmiss⟩ := LM.2.2.2 r'' hr''
        refine hpres'' c Scalar.missing (hmiss ?_ c hc)
        rw [← hkey, ← hkey'']
        exact hknot
      · exact IH.2.2.2.2 nd hnd' r' hr' hknot c hc

theorem keysOf_stringify_str (t : Table) (hwf : t.WF)
    (hP : "PATNO" ∈ t.cols) :
    ∀ k ∈ keysOf (stringifyCol "PATNO" t), ∃ s, k.1 = Scalar.str s := by
  intro k hk
  unfold keysOf stringifyCol at hk
  simp only [List.map_map, List.mem_map] at hk
  obtain ⟨r, hr, rfl⟩ := hk
  refine ⟨(getCell r "PATNO").render, ?_⟩
  show getCell (stringifyRow "PATNO" r) "PATNO" = _
  exact getCell_stringifyRow_eq "PATNO" r (by rw [hwf r hr]; exact hP)

/-- The aggregator keeps both key columns in its output whenever the input
has them. -/
theorem aggregate_keycols (t : Table) (hP : "PATNO" ∈ t.cols)
    (hE : "EVENT_ID" ∈ t.cols) :
    "PATNO" ∈ (aggregate_by_patno_eventid t).cols ∧
    "EVENT_ID" ∈ (aggregate_by_patno_eventid t).cols := by
  unfold aggregate_by_patno_eventid
  by_cases h1 : t.isEmptyT = true
  · rw [if_pos h1]; exact ⟨hP, hE⟩
  · rw [if_neg h1, if_neg (not_not_intro ⟨hP, hE⟩)]
    by_cases h3 : (keysOf (stringifyCol "PATNO" t)).Nodup
    · rw [if_pos h3]; exact ⟨hP, hE⟩
    · rw [if_neg h3]
      unfold slowAgg
      by_cases h4 :
          (t.cols.filter (fun c => c ≠ "PATNO" ∧ c ≠ "EVENT_ID")).isEmpty = true
      · rw [if_pos h4]; exact ⟨hP, hE⟩
      · rw [if_neg h4]
        exact ⟨List.mem_cons_self _ _,
          List.mem_cons_of_mem _ (List.mem_cons_self _ _)⟩

/-- Filtering the non-key columns commutes with source prefixing, provided
no prefixed non-key name collides with EVENT_ID. -/
theorem filter_map_prefixName (n : String) (l : List String)
    (hk : ∀ c ∈ l, (c ≠ "PATNO" ∧ c ≠ "EVENT_ID") →
      prefixName n c ≠ "EVENT_ID") :
    (l.map (prefixName n)).filter (fun c => c ≠ "PATNO" ∧ c ≠ "EVENT_ID") =
      (l.filter (fun c => c ≠ "PATNO" ∧ c ≠ "EVENT_ID")).map (prefixName n) := by
  induction l with
  | nil => rfl
  | cons c l ih =>
    have ih' := ih fun c hc => hk c (List.mem_cons_of_mem _ hc)
    by_cases hkey : c = "PATNO" ∨ c = "EVENT_ID"
    · have hpf : prefixName n c = c := by unfold prefixName; rw [if_pos hkey]
      have hpred : (decide (c ≠ "PATNO" ∧ c ≠ "EVENT_ID")) = false := by
        rcases hkey with rfl | rfl <;> decide
      simp only [List.map_cons, List.filter_cons, hpf, hpred,
        Bool.false_eq_true, if_false]
      exact ih'
    · push_neg at hkey
      have hpred : (decide (c ≠ "PATNO" ∧ c ≠ "EVENT_ID")) = true := by
        simp [hkey.1, hkey.2]
      have hnotP : prefixName n c ≠ "PATNO" :=
        fun hc => hkey.1 (prefixName_eq_patno n c hc)
      have hnotE : prefixName n c ≠ "EVENT_ID" :=
        hk c (List.mem_cons_self _ _) hkey
      have hpred2 : (decide (prefixName n c ≠ "PATNO" ∧
          prefixName n c ≠ "EVENT_ID")) = true := by
        simp [hnotP, hnotE]
      simp only [List.map_cons, List.filter_cons, hpred, hpred2, if_true]
      rw [ih']

theorem dataCols_prefixCols (n : String) (d : Table)
    (hk : ∀ c ∈ dataCols d, prefixName n c ≠ "EVENT_ID") :
    dataCols (prefixCols n d) = (dataCols d).map (prefixName n) := by
  unfold dataCols prefixCols
  exact filter_map_prefixName n d.cols fun c hc hc2 =>
    hk c (List.mem_filter.mpr ⟨hc, by simp [hc2.1, hc2.2]⟩)

/-- Full specification of the preparation of one participating source:
copy, PATNO stringification, per-source aggregation, prefixing. -/
theorem prepareSource_spec (n : String) (t0 : Table) (hwf : t0.WF)
    (hne : t0.isEmptyT = false)
    (hP : "PATNO" ∈ t0.cols) (hE : "EVENT_ID" ∈ t0.cols)
    (hev : ∀ r ∈ t0.rows, getCell r "EVENT_ID" ≠ Scalar.missing)
    (hkeyfree : ∀ c ∈ dataCols t0, prefixName n c ≠ "EVENT_ID") :
    ∃ d, prepareSource n t0 = some d ∧
      d.WF ∧ (keysOf d).Nodup ∧
      (∀ k, k ∈ keysOf d ↔ k ∈ keysOf (stringifyCol "PATNO" t0)) ∧
      (∀ k ∈ keysOf d, (∃ s, k.1 = Scalar.str s) ∧ k.2 ≠ Scalar.missing) ∧
      dataCols d = (dataCols t0).map (prefixName n) ∧
      "PATNO" ∈ d.cols ∧ "EVENT_ID" ∈ d.cols ∧ d.rows ≠ [] := by
  have hwf1 : (stringifyCol "PATNO" t0).WF := stringifyCol_WF hwf
  have hP1 : "PATNO" ∈ (stringifyCol "PATNO" t0).cols := hP
  have hE1 : "EVENT_ID" ∈ (stringifyCol "PATNO" t0).cols := hE
  have hev1 : ∀ r ∈ (stringifyCol "PATNO" t0).rows,
      getCell r "EVENT_ID" ≠ Scalar.missing := by
    intro r hr
    obtain ⟨r0, hr0, rfl⟩ := List.mem_map.mp hr
    rw [getCell_stringifyRow_ne (by decide)]
    exact hev r0 hr0
  have hspec := aggregate_keys_spec (stringifyCol "PATNO" t0) hwf1 hP1 hE1 hev1
  rw [stringifyCol_idem] at hspec
  set dA := aggregate_by_patno_eventid (stringifyCol "PATNO" t0) with hdA
  have hwfA : dA.WF := aggregate_WF _ hwf1
  have hkcA := aggregate_keycols (stringifyCol "PATNO" t0) hP1 hE1
  have hdataA : dataCols dA = dataCols t0 :=
    dataCols_aggregate (stringifyCol "PATNO" t0)
  have hEfree : ∀ c ∈ dA.cols, prefixName n c = "EVENT_ID" →
      c = "EVENT_ID" := by
    intro c hc hpe
    by_cases hce : c = "EVENT_ID"
    · exact hce
    · by_cases hcp : c = "PATNO"
      · subst hcp
        rw [prefixName_patno] at hpe
        exact absurd hpe (by decide)
      · exfalso
        refine hkeyfree c ?_ hpe
        rw [← hdataA]
        exact List.mem_filter.mpr ⟨hc, by simp [hcp, hce]⟩
  have hkeysd : keysOf (prefixCols n dA) = keysOf dA :=
    keysOf_prefixCols n dA hwfA hEfree
  have hrows0 : t0.rows ≠ [] := by
    intro hc
    unfold Table.isEmptyT at hne
    rw [hc] at hne
    simp at hne
  have hkeys1ne : keysOf (stringifyCol "PATNO" t0) ≠ [] := by
    unfold keysOf stringifyCol
    simp only [List.map_map, ne_eq, List.map_eq_nil_iff]
    exact hrows0
  have hrowsA : dA.rows ≠ [] := by
    intro hc
    rcases hk1 : keysOf (stringifyCol "PATNO" t0) with _ | ⟨k0, ks⟩
    · exact hkeys1ne hk1
    · have : k0 ∈ keysOf dA := (hspec.2 k0).mpr (by rw [hk1]; exact List.mem_cons_self _ _)
      unfold keysOf at this
      rw [hc] at this
      exact List.not_mem_nil k0 this
  refine ⟨prefixCols n dA, ?_, prefixCols_WF n dA hwfA, ?_, ?_, ?_, ?_, ?_, ?_, ?_⟩
  · unfold prepareSource
    rw [if_neg (by simp [hne]), if_neg (not_not_intro ⟨hP, hE⟩)]
  · rw [hkeysd]; exact hspec.1
  · intro k
    rw [hkeysd]
    exact hspec.2 k
  · intro k hk
    rw [hkeysd] at hk
    have hk1 := (hspec.2 k).mp hk
    exact ⟨keysOf_stringify_str t0 hwf hP k hk1,
      (keysOf_stringify_nonmissing t0 hwf hP hev k hk1).2⟩
  · rw [dataCols_prefixCols n dA (by rw [hdataA]; exact hkeyfree), hdataA]
  · show "PATNO" ∈ dA.cols.map (prefixName n)
    exact List.mem_map.mpr ⟨"PATNO", hkcA.1, prefixName_patno n⟩
  · show "EVENT_ID" ∈ dA.cols.map (prefixName n)
    exact List.mem_map.mpr ⟨"EVENT_ID", hkcA.2, prefixName_eventid n⟩
  · show dA.rows.map _ ≠ []
    simp only [ne_eq, List.map_eq_nil_iff]
    exact hrowsA

/-- Stringifying PATNO is key-invariant on rows whose PATNO cell is already
a string. -/
theorem keyOf_stringifyRow_of_str (r : Row) (s : String)
    (h : getCell r "PATNO" = Scalar.str s) :
    keyOf (stringifyRow "PATNO" r) = keyOf r := by
  unfold keyOf
  rw [getCell_stringifyRow_ne (show "EVENT_ID" ≠ "PATNO" by decide)]
  refine congrArg (fun v => (v, getCell r "EVENT_ID")) ?_
  unfold getCell at h ⊢
  rw [lookup_stringifyRow]
  cases hl : r.lookup "PATNO" with
  | none => rw [hl] at h; exact absurd h (by simp)
  | some v =>
    rw [hl] at h
    simp only [Option.getD_some] at h
    subst h
    simp [Scalar.render]

theorem keysOf_stringify_of_str (t : Table)
    (h : ∀ r ∈ t.rows, ∃ s, getCell r "PATNO" = Scalar.str s) :
    keysOf (stringifyCol "PATNO" t) = keysOf t := by
  unfold keysOf stringifyCol
  simp only [List.map_map]
  refine List.map_congr_left fun r hr => ?_
  obtain ⟨s, hs⟩ := h r hr
  exact keyOf_stringifyRow_of_str r s hs

/-- Fast-path form of the aggregator, for tables already string-keyed and
duplicate-free. -/
theorem aggregate_eq_stringify (t : Table) (h1 : t.isEmptyT = false)
    (h2 : "PATNO" ∈ t.cols ∧ "EVENT_ID" ∈ t.cols)
    (h3 : (keysOf (stringifyCol "PATNO" t)).Nodup) :
    aggregate_by_patno_eventid t = stringifyCol "PATNO" t := by
  unfold aggregate_by_patno_eventid
  rw [if_neg (by simp [h1]), if_neg (not_not_intro h2), if_pos h3]

/-- The base frame built from the deduplicated union of key pairs. -/
def baseFrame (ap : List (Scalar × Scalar)) : Table :=
  { cols := ["PATNO", "EVENT_ID"],
    rows := ap.map (fun k =>
      [("PATNO", Scalar.str k.1.render), ("EVENT_ID", k.2)]) }

/-- Core specification of the merge phase over already-prepared sources:
the consolidated key set is exactly the union of the prepared key sets, and
any key absent from one prepared source carries missing in all of that
source's data columns. -/
theorem merge_core_spec (Lp : List (String × Table))
    (hLp : ∀ nd ∈ Lp, (keysOf nd.2).Nodup ∧
      (∀ k ∈ keysOf nd.2, (∃ s, k.1 = Scalar.str s) ∧
        k.2 ≠ Scalar.missing) ∧
      "PATNO" ∈ nd.2.cols ∧ nd.2.rows ≠ [])
    (hcross : (Lp.flatMap (fun nd => dataCols nd.2)).Nodup)
    (res : Table)
    (hres : res = (if (firstDedup (Lp.flatMap (fun nd =>
        firstDedup (keysOf nd.2)))).isEmpty = true then
        { cols := [], rows := [] }
      else aggregate_by_patno_eventid (mergeFold Lp
        (baseFrame (firstDedup (Lp.flatMap (fun nd =>
          firstDedup (keysOf nd.2)))))))) :
    (∀ k, k ∈ keysOf res ↔ ∃ nd ∈ Lp, k ∈ keysOf nd.2) ∧
    (∀ nd ∈ Lp, ∀ r' ∈ res.rows, keyOf r' ∉ keysOf nd.2 →
      ∀ c ∈ dataCols nd.2, getCell r' c = Scalar.missing) := by
  have hmem_ap : ∀ k, k ∈ firstDedup (Lp.flatMap (fun nd =>
      firstDedup (keysOf nd.2))) ↔ ∃ nd ∈ Lp, k ∈ keysOf nd.2 := by
    intro k
    rw [mem_firstDedup, List.mem_flatMap]
    constructor
    · rintro ⟨nd, hnd, hk⟩
      exact ⟨nd, hnd, (mem_firstDedup _ k).mp hk⟩
    · rintro ⟨nd, hnd, hk⟩
      exact ⟨nd, hnd, (mem_firstDedup _ k).mpr hk⟩
  by_cases hap : (firstDedup (Lp.flatMap (fun nd =>
      firstDedup (keysOf nd.2)))).isEmpty = true
  · rw [if_pos hap] at hres
    subst hres
    constructor
    · intro k
      constructor
      · intro hk
        exact absurd hk (List.not_mem_nil k)
      · intro hk
        have := (hmem_ap k).mpr hk
        rw [List.isEmpty_iff.mp hap] at this
        exact absurd this (List.not_mem_nil k)
    · intro nd hnd r' hr'
      exact absurd hr' (List.not_mem_nil r')
  · rw [if_neg hap] at hres
    have hapne : firstDedup (Lp.flatMap (fun nd =>
        firstDedup (keysOf nd.2))) ≠ [] := by
      intro hc
      rw [hc] at hap
      exact hap rfl
    set ap := firstDedup (Lp.flatMap (fun nd => firstDedup (keysOf nd.2)))
      with hapdef
    have hbwf : (baseFrame ap).WF := by
      intro r hr
      obtain ⟨k, hk, rfl⟩ := List.mem_map.mp hr
      rfl
    have hbP : "PATNO" ∈ (baseFrame ap).cols := by
      show "PATNO" ∈ ["PATNO", "EVENT_ID"]
      decide
    have hbE : "EVENT_ID" ∈ (baseFrame ap).cols := by
      show "EVENT_ID" ∈ ["PATNO", "EVENT_ID"]
      decide
    have hbkeys : keysOf (baseFrame ap) = ap := by
      unfold keysOf baseFrame
      rw [List.map_map]
      calc ap.map _
          = ap.map id := by
            refine List.map_congr_left fun k hk => ?_
            obtain ⟨nd, hnd, hknd⟩ := (hmem_ap k).mp hk
            obtain ⟨⟨s, hs⟩, _⟩ := (hLp nd hnd).2.1 k hknd
            show keyOf [("PATNO", Scalar.str k.1.render),
              ("EVENT_ID", k.2)] = k
            have : keyOf [("PATNO", Scalar.str k.1.render),
                ("EVENT_ID", k.2)] = (Scalar.str k.1.render, k.2) := rfl
            rw [this, hs]
            show ((Scalar.str s, k.2) : Scalar × Scalar) = k
            rw [← hs]
        _ = ap := List.map_id _
    have MF := mergeFold_spec Lp (baseFrame ap) hbwf hbP hbE
      (fun nd hnd => ⟨(hLp nd hnd).1, (hLp nd hnd).2.2.2, (hLp nd hnd).2.2.1⟩)
      (fun nd hnd c hc => by
        have := (List.mem_filter.mp hc).2
        simp only [decide_eq_true_eq] at this
        show c ∉ ["PATNO", "EVENT_ID"]
        simp [this.1, this.2])
      hcross
    have hkeysM : keysOf (mergeFold Lp (baseFrame ap)) = ap := by
      rw [MF.2.2.1, hbkeys]
    have hrowsM : (mergeFold Lp (baseFrame ap)).rows ≠ [] := by
      intro hc
      apply hapne
      rw [← hkeysM]
      unfold keysOf
      rw [hc]
      rfl
    have hPM : "PATNO" ∈ (mergeFold Lp (baseFrame ap)).cols := by
      rw [MF.1]
      exact List.mem_append.mpr (Or.inl hbP)
    have hEM : "EVENT_ID" ∈ (mergeFold Lp (baseFrame ap)).cols := by
      rw [MF.1]
      exact List.mem_append.mpr (Or.inl hbE)
    have hstrM : ∀ r' ∈ (mergeFold Lp (baseFrame ap)).rows,
        ∃ s, getCell r' "PATNO" = Scalar.str s := by
      intro r' hr'
      obtain ⟨rb, hrb, hkey, _⟩ := MF.2.2.2.1 r' hr'
      obtain ⟨k, hk, rfl⟩ := List.mem_map.mp hrb
      refine ⟨k.1.render, ?_⟩
      have h1 : getCell r' "PATNO" = (keyOf r').1 := rfl
      rw [h1, hkey]
      rfl
    have hkeysSM : keysOf (stringifyCol "PATNO"
        (mergeFold Lp (baseFrame ap))) =
        keysOf (mergeFold Lp (baseFrame ap)) :=
      keysOf_stringify_of_str _ hstrM
    have hEmpM : (mergeFold Lp (baseFrame ap)).isEmptyT = false :=
      isEmptyT_false_of _ hPM hrowsM
    have hagg : aggregate_by_patno_eventid (mergeFold Lp (baseFrame ap)) =
        stringifyCol "PATNO" (mergeFold Lp (baseFrame ap)) := by
      refine aggregate_eq_stringify _ hEmpM ⟨hPM, hEM⟩ ?_
      rw [hkeysSM, hkeysM]
      exact nodup_firstDedup _
    subst hres
    rw [hagg]
    constructor
    · intro k
      rw [hkeysSM, hkeysM]
      exact hmem_ap k
    · intro nd hnd r'' hr'' hknot c hc
      obtain ⟨r', hr', rfl⟩ := List.mem_map.mp hr''
      have hcpred := (List.mem_filter.mp hc).2
      simp only [decide_eq_true_eq] at hcpred
      rw [getCell_stringifyRow_ne
        (show c ≠ "PATNO" from hcpred.1) r']
      obtain ⟨s, hs⟩ := hstrM r' hr'
      have hkeq : keyOf (stringifyRow "PATNO" r') = keyOf r' :=
        keyOf_stringifyRow_of_str r' s hs
      rw [hkeq] at hknot
      have := MF.2.2.2.2 nd hnd r' hr' hknot c hc
      unfold getCell
      rw [this]
      rfl

theorem prepareSource_some_conditions (n : String) (t0 : Table) (d : Table)
    (h : prepareSource n t0 = some d) :
    t0.isEmptyT = false ∧ "PATNO" ∈ t0.cols ∧ "EVENT_ID" ∈ t0.cols := by
  unfold prepareSource at h
  by_cases h1 : t0.isEmptyT = true
  · rw [if_pos h1] at h
    exact Option.noConfusion h
  · rw [if_neg h1] at h
    by_cases h2 : ("PATNO" ∈ t0.cols ∧ "EVENT_ID" ∈ t0.cols)
    · exact ⟨Bool.eq_false_iff.mpr h1, h2⟩
    · rw [if_pos h2] at h
      exact Option.noConfusion h

theorem flatMap_filterMap_sublist {α β γ : Type} (l : List α)
    (f : α → Option β) (g : β → List γ) (G : α → List γ)
    (h : ∀ a ∈ l, ∀ b, f a = some b → g b = G a) :
    List.Sublist ((l.filterMap f).flatMap g) (l.flatMap G) := by
  induction l with
  | nil => exact List.Sublist.refl _
  | cons a l ih =>
    have ih' := ih fun a ha => h a (List.mem_cons_of_mem _ ha)
    rw [List.filterMap_cons, List.flatMap_cons]
    cases hfa : f a with
    | none =>
      exact List.Sublist.trans ih' (List.sublist_append_right _ _)
    | some b =>
      rw [List.flatMap_cons, h a (List.mem_cons_self _ _) b hfa]
      exact List.Sublist.append (List.Sublist.refl _) ih'

/-- Claim C8, counterexample: with a single participating source whose rows
share the key ("1", NaN), the union of the source key sets contains that
key, but the consolidated output is empty — the source-local aggregation
pass drops NaN-keyed groups before the union of key pairs is computed. -/
theorem claim_C8_counterexample :
    (Scalar.str "1", Scalar.missing) ∈ keysOf tableNaNEvent ∧
    tableNaNEvent.isEmptyT = false ∧
    "PATNO" ∈ tableNaNEvent.cols ∧ "EVENT_ID" ∈ tableNaNEvent.cols ∧
    keysOf (merge_biospecimen_data [("A", tableNaNEvent)]) = [] := by
  decide

/-- Claim C8 (amended): for well-formed sources with non-missing EVENT_ID
cells and collision-free prefixed column names, the key set of the
consolidated output equals the union of the (PATNO-normalized) key sets of
the participating, non-empty sources having both key columns; and a key
contributed by only some sources carries missing in every prefixed column
coming from a source lacking that key. -/
theorem claim_C8_union_keys_null_fill (sources : List (String × Table))
    (hwf : ∀ nt ∈ sources, nt.2.WF)
    (hev : ∀ nt ∈ sources, ∀ r ∈ nt.2.rows,
      getCell r "EVENT_ID" ≠ Scalar.missing)
    (hkeyfree : ∀ nt ∈ sources, ∀ c ∈ dataCols nt.2,
      prefixName nt.1 c ≠ "EVENT_ID")
    (hcross : (sources.flatMap (fun nt =>
      (dataCols nt.2).map (prefixName nt.1))).Nodup) :
    (∀ k, k ∈ keysOf (merge_biospecimen_data sources) ↔
      ∃ nt ∈ sources, nt.2.isEmptyT = false ∧ "PATNO" ∈ nt.2.cols ∧
        "EVENT_ID" ∈ nt.2.cols ∧
        k ∈ keysOf (stringifyCol "PATNO" nt.2)) ∧
    (∀ nt ∈ sources, nt.2.isEmptyT = false → "PATNO" ∈ nt.2.cols →
      "EVENT_ID" ∈ nt.2.cols →
      ∀ r' ∈ (merge_biospecimen_data sources).rows,
        keyOf r' ∉ keysOf (stringifyCol "PATNO" nt.2) →
        ∀ c ∈ dataCols nt.2,
          getCell r' (prefixName nt.1 c) = Scalar.missing) := by
  have huniq : ∀ nt ∈ sources, ∀ d, prepareSource nt.1 nt.2 = some d →
      (∀ k, k ∈ keysOf d ↔ k ∈ keysOf (stringifyCol "PATNO" nt.2)) ∧
      (keysOf d).Nodup ∧
      (∀ k ∈ keysOf d, (∃ s, k.1 = Scalar.str s) ∧
        k.2 ≠ Scalar.missing) ∧
      dataCols d = (dataCols nt.2).map (prefixName nt.1) ∧
      "PATNO" ∈ d.cols ∧ d.rows ≠ [] := by
    intro nt hnt d hd
    obtain ⟨h1, h2, h3⟩ := prepareSource_some_conditions _ _ _ hd
    obtain ⟨d', hd', hwf', hnod', hiff', hkprops', hdata', hPd', hEd', hrows'⟩ :=
      prepareSource_spec nt.1 nt.2 (hwf nt hnt) h1 h2 h3 (hev nt hnt)
        (hkeyfree nt hnt)
    rw [hd] at hd'
    injection hd' with he
    subst he
    exact ⟨hiff', hnod', hkprops', hdata', hPd', hrows'⟩
  have hsrc : ∀ nt ∈ sources, nt.2.isEmptyT = false →
      "PATNO" ∈ nt.2.cols → "EVENT_ID" ∈ nt.2.cols →
      ∃ d, prepareSource nt.1 nt.2 = some d := by
    intro nt hnt h1 h2 h3
    obtain ⟨d, hd, _⟩ := prepareSource_spec nt.1 nt.2 (hwf nt hnt) h1 h2 h3
      (hev nt hnt) (hkeyfree nt hnt)
    exact ⟨d, hd⟩
  have hLpcore : ∀ nd ∈ sources.filterMap (fun nt =>
      (prepareSource nt.1 nt.2).map (fun d => (nt.1, d))),
      (keysOf nd.2).Nodup ∧
      (∀ k ∈ keysOf nd.2, (∃ s, k.1 = Scalar.str s) ∧
        k.2 ≠ Scalar.missing) ∧
      "PATNO" ∈ nd.2.cols ∧ nd.2.rows ≠ [] := by
    intro nd hnd
    obtain ⟨nt, hnt, hf⟩ := List.mem_filterMap.mp hnd
    cases hpre : prepareSource nt.1 nt.2 with
    | none => rw [hpre] at hf; exact Option.noConfusion hf
    | some d =>
      rw [hpre] at hf
      have hf2 : (nt.1, d) = nd := by injection hf
      obtain ⟨hiff, hnod, hkprops, hdata, hPd, hrows⟩ := huniq nt hnt d hpre
      rw [← hf2]
      exact ⟨hnod, hkprops, hPd, hrows⟩
  have hcrossLp : ((sources.filterMap (fun nt =>
      (prepareSource nt.1 nt.2).map (fun d => (nt.1, d)))).flatMap
        (fun nd => dataCols nd.2)).Nodup := by
    refine List.Nodup.sublist ?_ hcross
    refine flatMap_filterMap_sublist sources _ _ _ ?_
    intro nt hnt nd hf
    cases hpre : prepareSource nt.1 nt.2 with
    | none => rw [hpre] at hf; exact Option.noConfusion hf
    | some d =>
      rw [hpre] at hf
      have hf2 : (nt.1, d) = nd := by injection hf
      rw [← hf2]
      exact (huniq nt hnt d hpre).2.2.2.1
  have hres : merge_biospecimen_data sources =
      (if (firstDedup ((sources.filterMap (fun nt =>
          (prepareSource nt.1 nt.2).map (fun d => (nt.1, d)))).flatMap
            (fun nd => firstDedup (keysOf nd.2)))).isEmpty = true then
        { cols := [], rows := [] }
      else aggregate_by_patno_eventid (mergeFold
        (sources.filterMap (fun nt =>
          (prepareSource nt.1 nt.2).map (fun d => (nt.1, d))))
        (baseFrame (firstDedup ((sources.filterMap (fun nt =>
          (prepareSource nt.1 nt.2).map (fun d => (nt.1, d)))).flatMap
            (fun nd => firstDedup (keysOf nd.2))))))) := by
    rfl
  have core := merge_core_spec
    (sources.filterMap (fun nt =>
      (prepareSource nt.1 nt.2).map (fun d => (nt.1, d))))
    hLpcore hcrossLp (merge_biospecimen_data sources) hres
  constructor
  · intro k
    rw [core.1 k]
    constructor
    · rintro ⟨nd, hnd, hknd⟩
      obtain ⟨nt, hnt, hf⟩ := List.mem_filterMap.mp hnd
      cases hpre : prepareSource nt.1 nt.2 with
      | none => rw [hpre] at hf; exact Option.noConfusion hf
      | some d =>
        rw [hpre] at hf
        have hf2 : (nt.1, d) = nd := by injection hf
        obtain ⟨h1, h2, h3⟩ := prepareSource_some_conditions _ _ _ hpre
        refine ⟨nt, hnt, h1, h2, h3, ?_⟩
        refine ((huniq nt hnt d hpre).1 k).mp ?_
        rw [← hf2] at hknd
        exact hknd
    · rintro ⟨nt, hnt, h1, h2, h3, hk⟩
      obtain ⟨d, hd⟩ := hsrc nt hnt h1 h2 h3
      refine ⟨(nt.1, d), ?_, ((huniq nt hnt d hd).1 k).mpr hk⟩
      exact List.mem_filterMap.mpr ⟨nt, hnt, by rw [hd]; rfl⟩
  · intro nt hnt h1 h2 h3 r' hr' hknot c hc
    obtain ⟨d, hd⟩ := hsrc nt hnt h1 h2 h3
    have hu := huniq nt hnt d hd
    refine core.2 (nt.1, d)
      (List.mem_filterMap.mpr ⟨nt, hnt, by rw [hd]; rfl⟩) r' hr' ?_
      (prefixName nt.1 c) ?_
    · intro hkmem
      exact hknot ((hu.1 _).mp hkmem)
    · show prefixName nt.1 c ∈ dataCols d
      rw [hu.2.2.2.1]
      exact List.mem_map.mpr ⟨c, hc, rfl⟩

def c8Sources : List (String × Table) :=
  [("A", { cols := ["PATNO", "EVENT_ID", "X"],
           rows := [[("PATNO", .str "1"), ("EVENT_ID", .str "BL"),
                     ("X", .int 5)]] }),
   ("B", { cols := ["PATNO", "EVENT_ID", "Y"],
           rows := [[("PATNO", .str "1"), ("EVENT_ID", .str "V04"),
                     ("Y", .int 7)]] })]

/-- Claim C8, witness: the spec's own example scenario — source A holds key
(1, "BL") only and source B holds key (1, "V04") only; the hypotheses hold
by computation and the amended claim applies. -/
theorem claim_C8_witness :
    (∀ nt ∈ c8Sources, nt.2.WF) ∧
    ((∀ k, k ∈ keysOf (merge_biospecimen_data c8Sources) ↔
      ∃ nt ∈ c8Sources, nt.2.isEmptyT = false ∧ "PATNO" ∈ nt.2.cols ∧
        "EVENT_ID" ∈ nt.2.cols ∧
        k ∈ keysOf (stringifyCol "PATNO" nt.2)) ∧
    (∀ nt ∈ c8Sources, nt.2.isEmptyT = false → "PATNO" ∈ nt.2.cols →
      "EVENT_ID" ∈ nt.2.cols →
      ∀ r' ∈ (merge_biospecimen_data c8Sources).rows,
        keyOf r' ∉ keysOf (stringifyCol "PATNO" nt.2) →
        ∀ c ∈ dataCols nt.2,
          getCell r' (prefixName nt.1 c) = Scalar.missing)) :=
  ⟨by decide, claim_C8_union_keys_null_fill c8Sources (by decide) (by decide)
    (by decide) (by decide)⟩
